import Mathlib

/-!
# lsh: a verification development for `lsh.c`

A shallow embedding of the command engine of `lsh.c` (tokenizer, redirection
detector, parallel grouper, path resolver, dispatcher) and theorems about it.

Conventions of the embedding.

* A C string is the list of its characters before the terminating NUL
  (`CStr`).
* Where the shell process builds a string in a heap buffer whose size does not
  follow from the string (`createWhiteSpace`: `strlen(str) + 20` bytes;
  `searchPaths`: 1028 bytes; `setPaths`: 1024 bytes), the buffer has its
  capacity in the model: a store past the end, or a string left without its
  NUL inside the buffer, has no defined result (`none`).  The buffer of
  `removeWhiteSpace` (`strlen(str) + 1` bytes for at most `strlen(str)`
  characters) and the copies of `strdup` always fit.
* A `char**` token array is a list of entries, `none` standing for `NULL`
  (`Argv`).  The length argument that travels with it in C stays explicit.
* `int` counters and indices are `Nat`/`Int`; the loops run at most once per
  token or character, far below `2^31`.
* Code that dereferences `NULL`, reads or writes outside a token array or
  `multi`, uses an unassigned pointer, or calls `free` on a pointer that
  `malloc` did not return has no defined result: the model returns `none` (or
  `Outcome.fault`).
* `strdup` copies are the strings themselves.  The calls of `free` before
  `exit(0)` in `processCmd` are recorded (`Action.cleanUp`,
  `Action.freeCmdArr`), and `processCmd` is told where in its `malloc` block
  the pointer `cmdArr` points (`offset`), which decides whether `free(cmdArr)`
  is defined.  The other calls of `free` are on pointers that `malloc`,
  `calloc` or `strdup` returned and leave no trace.  The store into `pids` is
  recorded with its index (`Action.storePid`) next to the size of the
  allocation (`Action.allocPids`).
* The shell process is modelled alone.  What the system answers (`access`,
  `chdir`, `fork`) is a parameter (`OS`); a child appears as the action that
  created it and as one more child to wait for.  What the child branch of
  `forkCall` does is a function of its own (`forkCallChild`), with the result
  of `execvp` as a parameter; it records the string handed to `putenv`, not
  the 1024 bytes of `tempPath` that hold it.
-/

namespace Lsh

/-- A C string: the characters before the terminating NUL. -/
abbrev CStr := List Char

/-- A `char**` array; `none` is a `NULL` entry. -/
abbrev Argv := List (Option CStr)

/-! ## Tokenizer -/

/-- The predicate `isspace(c) != 0` of `<ctype.h>` in the C locale: space, `\t`, `\n`,
`\v`, `\f`, `\r`. -/
def isspace (c : Char) : Bool :=
  c == ' ' || c == '\t' || c == '\n' || c == '\x0b' || c == '\x0c' || c == '\r'

/-- Bytes `createWhiteSpace` allocates for `newStr`: `calloc(strlen(str) + 20, 1)`. -/
def createWhiteSpaceAlloc (str : CStr) : Nat := str.length + 20

/-- The `for` loop of `createWhiteSpace` (lsh.c 641-656) over the remaining
characters of `str`, writing into a buffer of `cap` bytes; `newStr` holds the
characters stored so far, so `currIndex = newStr.length`.  A `>` or `&` is
stored as three characters at `currIndex`, `currIndex + 1`, `currIndex + 2`,
any other character as one at `currIndex`.  A store at an index `>= cap` lies
outside the buffer: no defined result. -/
def createWhiteSpaceLoop (cap : Nat) : CStr → CStr → Option CStr
  | [], newStr => some newStr
  | c :: cs, newStr =>
    if c = '>' ∨ c = '&' then
      if newStr.length + 2 < cap then createWhiteSpaceLoop cap cs (newStr ++ [' ', c, ' '])
      else none
    else
      if newStr.length < cap then createWhiteSpaceLoop cap cs (newStr ++ [c])
      else none

/-- The function `createWhiteSpace` (lsh.c 637-659): copies `str` into a zeroed buffer
of `strlen(str) + 20` bytes, writing a space before and after every `>` and
`&`.  The code stores no NUL of its own; what it returns is a C string only
when a zero byte of the `calloc` is left after the last character stored,
that is when fewer than `createWhiteSpaceAlloc str` characters were stored.
Otherwise the callers (`free`, `strlen` in `removeWhiteSpace`) work on a
damaged heap block or read past it: no defined result. -/
def createWhiteSpace (str : CStr) : Option CStr :=
  match createWhiteSpaceLoop (createWhiteSpaceAlloc str) str [] with
  | some newStr => if newStr.length < createWhiteSpaceAlloc str then some newStr else none
  | none => none

/-- The characters the loop of `createWhiteSpace` stores at `newStr[0], newStr[1], ...`
when no bound stops it: `str` with a space before and after every `>` and
`&`.  `createWhiteSpace_eq` relates it to `createWhiteSpace`. -/
def createWhiteSpaceChars : CStr → CStr
  | [] => []
  | c :: cs =>
    if c = '>' ∨ c = '&' then ' ' :: c :: ' ' :: createWhiteSpaceChars cs
    else c :: createWhiteSpaceChars cs

/-- The `for` loop of `removeWhiteSpace` (lsh.c 600-617) over the remaining
characters of `str`, with the locals `prevIsWhite`, `seen` and the characters
written to `newStr` so far. -/
def removeWhiteSpaceLoop : CStr → Bool → Bool → CStr → CStr
  | [], _, _, newStr => newStr
  | c :: cs, prevIsWhite, seen, newStr =>
    if isspace c = false then
      removeWhiteSpaceLoop cs false true (newStr ++ [c])
    else if prevIsWhite = false ∧ seen = true then
      removeWhiteSpaceLoop cs true seen (newStr ++ [' '])
    else
      removeWhiteSpaceLoop cs prevIsWhite seen newStr

/-- The function `removeWhiteSpace` (lsh.c 594-626): the loop, then the final test on
`newStr[strlen(newStr)-1]`, which cuts a trailing white-space character.  When
`newStr` is empty that index lies before the buffer; whatever is read there,
the string in the buffer stays empty. -/
def removeWhiteSpace (str : CStr) : CStr :=
  let newStr := removeWhiteSpaceLoop str false false []
  match newStr.getLast? with
  | some c => if isspace c then newStr.dropLast else newStr
  | none => newStr

/-- One call `strsep(&p, " ")` of libc on a non-`NULL` `p`: the token up to the
first space, and the new value of `p` (`none` for `NULL` when no space is
left, otherwise the text after that space). -/
def strsep : CStr → CStr × Option CStr
  | [] => ([], none)
  | c :: cs =>
    if c = ' ' then ([], some cs)
    else ((c :: (strsep cs).1), (strsep cs).2)

/-- The loop `while ((found = strsep(&cmd, " ")) != NULL) cmdArr[counter2++] = strdup(found);`
(lsh.c 224-227): the tokens stored, in order.  `fuel` bounds the
number of iterations; `strsepLoop_fuel` shows `strlen + 1` is enough. -/
def strsepLoop : Nat → Option CStr → List CStr
  | 0, _ => []
  | _, none => []
  | fuel + 1, some s => (strsep s).1 :: strsepLoop fuel (strsep s).2

/-- The counting loop `while ((found = strsep(&cmdCpy, " ")) != NULL) counter++;`
(lsh.c 215-217). -/
def strsepCount : Nat → Option CStr → Nat
  | 0, _ => 0
  | _, none => 0
  | fuel + 1, some s => strsepCount fuel (strsep s).2 + 1

/-- The tokenizing part of one iteration of `interactiveMode` / `batchMode`
(lsh.c 201-227, 279-301) on a line whose end-of-line character is already
cut: `(cmdArr, counter)`, where `cmdArr` has `counter + 1` entries, the last
one `NULL`.  No defined result when `createWhiteSpace` has none. -/
def tokenize (line : CStr) : Option (Argv × Nat) :=
  match createWhiteSpace line with
  | some temp =>
    let cmd := removeWhiteSpace temp
    let counter := strsepCount (cmd.length + 1) (some cmd)
    let toks := strsepLoop (cmd.length + 1) (some cmd)
    some (toks.map some ++ [none], counter)
  | none => none

/-- The tokens `tokenize` stores in `cmdArr[0 .. counter-1]` when the buffer of
`createWhiteSpace` is large enough (`tokenize_eq`). -/
def tokens (line : CStr) : List CStr :=
  strsepLoop ((removeWhiteSpace (createWhiteSpaceChars line)).length + 1)
    (some (removeWhiteSpace (createWhiteSpaceChars line)))

/-! ## Redirection detector -/

/-- The value `checkRedirect` returns after its loop (lsh.c 558-568), from the
locals `counter` and `penultimate`. -/
def checkRedirectFinish (counter : Nat) (penultimate : Bool) : Int :=
  if counter = 1 then (if penultimate = true then 1 else -1)
  else if counter > 1 then -1
  else 0

/-- The `for` loop of `checkRedirect` (lsh.c 538-556) with `k` iterations left
at index `i`.  The result is the returned `int` and the array as the call
leaves it; `none` when `strcmp` is handed `NULL` or memory outside the
array. -/
def checkRedirectLoop (cmdArrSize : Nat) :
    Nat → Nat → Argv → Nat → Bool → Option (Int × Argv)
  | 0, _, cmdArr, counter, penultimate =>
    some (checkRedirectFinish counter penultimate, cmdArr)
  | k + 1, i, cmdArr, counter, penultimate =>
    match cmdArr[i]? with
    | some (some tok) =>
      if tok = ['>'] then
        if i = 0 then some (-1, cmdArr)
        else if (i : Int) = (cmdArrSize : Int) - 1 then some (-1, cmdArr)
        else
          checkRedirectLoop cmdArrSize k (i + 1) (cmdArr.set i none) (counter + 1)
            (if (i : Int) = (cmdArrSize : Int) - 2 then true else penultimate)
      else checkRedirectLoop cmdArrSize k (i + 1) cmdArr counter penultimate
    | _ => none

/-- The function `checkRedirect` (lsh.c 528-569): `-1` for any error, `0` for no
redirect, `1` for a valid redirect, together with the array after the call. -/
def checkRedirect (cmdArr : Argv) (cmdArrSize : Nat) : Option (Int × Argv) :=
  checkRedirectLoop cmdArrSize cmdArrSize 0 cmdArr 0 false

/-! ## Parallel grouper -/

/-- The `for` loop of `checkParallel` (lsh.c 670-674): counts the `&` tokens. -/
def checkParallelLoop : Nat → Nat → Argv → Nat → Option Nat
  | 0, _, _, counter => some counter
  | k + 1, i, cmdArr, counter =>
    match cmdArr[i]? with
    | some (some tok) =>
      if tok = ['&'] then checkParallelLoop k (i + 1) cmdArr (counter + 1)
      else checkParallelLoop k (i + 1) cmdArr counter
    | _ => none

/-- The function `checkParallel` (lsh.c 668-677): number of `&` tokens plus one. -/
def checkParallel (cmdArr : Argv) (cmdArrSize : Nat) : Option Nat :=
  (checkParallelLoop cmdArrSize 0 cmdArr 0).map (· + 1)

/-- The store `multi[multiIndex] = v`; `none` when the index is outside `multi`. -/
def storeMulti (multi : List Nat) (multiIndex v : Nat) : Option (List Nat) :=
  if multiIndex < multi.length then some (multi.set multiIndex v) else none

/-- The `for` loop of `processParallel` (lsh.c 696-713) with `k` iterations
left at index `i`; the state is `(multi, multiIndex, next, counter, cmdArr)`. -/
def processParallelLoop :
    Nat → Nat → Argv → List Nat → Nat → Bool → Nat → Option (List Nat × Nat × Nat × Argv)
  | 0, _, cmdArr, multi, multiIndex, _, counter => some (multi, multiIndex, counter, cmdArr)
  | k + 1, i, cmdArr, multi, multiIndex, next, counter =>
    match cmdArr[i]? with
    | some (some tok) =>
      if tok = ['&'] then
        match storeMulti multi multiIndex counter with
        | some multi1 =>
          processParallelLoop k (i + 1) (cmdArr.set i none) multi1 (multiIndex + 1) true 0
        | none => none
      else if next = true ∨ i = 0 then
        match storeMulti multi multiIndex i with
        | some multi1 =>
          processParallelLoop k (i + 1) cmdArr multi1 (multiIndex + 1) false (counter + 1)
        | none => none
      else processParallelLoop k (i + 1) cmdArr multi multiIndex next (counter + 1)
    | _ => none

/-- The function `processParallel` (lsh.c 691-718): the array `multi` of `numPar * 2`
ints (zeroed by `calloc`) after the loop and the last store
`multi[multiIndex] = counter`, and `cmdArr` with its `&` entries set to
`NULL`.  The ints stored are indices and counts, never negative. -/
def processParallel (cmdArr : Argv) (cmdArrSize numPar : Nat) : Option (List Nat × Argv) :=
  match processParallelLoop cmdArrSize 0 cmdArr (List.replicate (numPar * 2) 0) 0 false 0 with
  | some (multi, multiIndex, counter, cmdArr1) =>
    (storeMulti multi multiIndex counter).map (fun m => (m, cmdArr1))
  | none => none

/-- The array `multi` read the way `executeParallel` reads it: pairs
`(multi[2k], multi[2k+1])` = (start, length). -/
def pairsOf : List Nat → List (Nat × Nat)
  | a :: b :: rest => (a, b) :: pairsOf rest
  | _ => []

/-! ## Strings in buffers of fixed size -/

/-- The call `strcpy(dst, src)` where `dst` is a buffer of `cap` bytes: the string in
`dst` afterwards.  The copy and its NUL take `strlen(src) + 1` bytes; when that
is more than `cap` the call stores outside the buffer: no defined result. -/
def strcpy (cap : Nat) (src : CStr) : Option CStr :=
  if src.length + 1 ≤ cap then some src else none

/-- The call `strcat(dst, src)` where `dst` is a buffer of `cap` bytes holding the string
`dst`: the string in the buffer afterwards, which with its NUL takes
`strlen(dst) + strlen(src) + 1` bytes; when that is more than `cap` the call
stores outside the buffer: no defined result. -/
def strcat (cap : Nat) (dst src : CStr) : Option CStr :=
  if dst.length + src.length + 1 ≤ cap then some (dst ++ src) else none

/-- The call `getcwd(buf, size)` made in the working directory `cwd`: the string left in
`buf`, or `none` when the call returns `NULL` because the path and its NUL do
not fit `size` bytes. -/
def getcwd (size : Nat) (cwd : CStr) : Option CStr :=
  if cwd.length + 1 ≤ size then some cwd else none

/-! ## Path resolver -/

/-- The string built in `temp` by one round of the loop of `searchPaths`
(lsh.c 433-436): `calloc(1028, 1)`, then `strcpy(temp, paths[i])`,
`strcat(temp, "/")`, `strcat(temp, command)`. -/
def searchPathsTemp (path command : CStr) : Option CStr :=
  match strcpy 1028 path with
  | some t0 =>
    match strcat 1028 t0 ['/'] with
    | some t1 => strcat 1028 t1 command
    | none => none
  | none => none

/-- The `for` loop of `searchPaths` (lsh.c 432-445) over `paths[i], paths[i+1], ...`;
`access p = true` stands for `access(p, X_OK) != -1`.  A round whose `temp`
does not hold the joined path has no defined result. -/
def searchPathsLoop (access : CStr → Bool) (command : CStr) : List CStr → Nat → Option Int
  | [], _ => some (-1)
  | p :: ps, i =>
    match searchPathsTemp p command with
    | some temp =>
      if access temp = true then some (i : Int)
      else searchPathsLoop access command ps (i + 1)
    | none => none

/-- The function `searchPaths` (lsh.c 426-447) on the global `paths` (with
`numPaths` its length): `-2` for the empty command, the index of the first
path under which the command is executable, `-1` when there is none. -/
def searchPaths (access : CStr → Bool) (paths : List CStr) (command : CStr) : Option Int :=
  if command = [] then some (-2) else searchPathsLoop access command paths 0

/-- The string built in `paths[i-1]` for an entry that does not start with `/`
(lsh.c 391-400): `calloc(1024, 1)`, `cwd = getcwd(paths[i-1], 1024)`,
`strcat(cwd, "/")`, `strcat(paths[i-1], cmdArr[i])`.  When `getcwd` returns
`NULL` the first `strcat` writes through `NULL`. -/
def setPathsEntry (cwd e : CStr) : Option CStr :=
  match getcwd 1024 cwd with
  | some b0 =>
    match strcat 1024 b0 ['/'] with
    | some b1 => strcat 1024 b1 e
    | none => none
  | none => none

/-- The `for` loop of `setPaths` (lsh.c 386-408) with `k` iterations left at
index `i`, `acc` being `paths[0 .. i-2]`.  `cwd` is the working directory.  An
entry that starts with `/` and is not one of the two defaults reaches
`strcat(paths[i-1], cmdArr[i])` with `paths[i-1]` never assigned: no defined
result. -/
def setPathsLoop (cwd : CStr) (cmdArr : Argv) : Nat → Nat → List CStr → Option (List CStr)
  | 0, _, acc => some acc
  | k + 1, i, acc =>
    match cmdArr[i]? with
    | some (some e) =>
      if e ≠ "/bin".toList ∧ e ≠ "/usr/bin".toList then
        if e.head? ≠ some '/' then
          match setPathsEntry cwd e with
          | some entry => setPathsLoop cwd cmdArr k (i + 1) (acc ++ [entry])
          | none => none
        else none
      else setPathsLoop cwd cmdArr k (i + 1) (acc ++ [e])
    | _ => none

/-- The function `setPaths` (lsh.c 374-418): the new global `paths`
(`numPaths = cmdArrSize - 1` entries). -/
def setPaths (cwd : CStr) (cmdArr : Argv) (cmdArrSize : Nat) : Option (List CStr) :=
  setPathsLoop cwd cmdArr (cmdArrSize - 1) 1 []

/-! ## Dispatcher and launcher, seen from the shell process -/

/-- What the shell process does to the outside, in order. -/
inductive Action
  /-- The call `write(STDERR_FILENO, error_message, strlen(error_message))`. -/
  | writeErr
  /-- The call `chdir(dir)` and whether it succeeded. -/
  | chdir (dir : CStr) (ok : Bool)
  /-- A `fork()` that failed (`rc < 0`). -/
  | forkFailed
  /-- A `fork()` that created a child, with the arguments of the `forkCall`
  the child runs. -/
  | spawn (cmdArr : Argv) (cmdArrSize : Nat) (pathIndex : Nat)
  /-- The store `pids[pidIndex] = rc`. -/
  | storePid (pidIndex : Nat)
  /-- A call `wait(NULL)`; `reaped` tells whether a child was there to wait for
  (otherwise the call returns `-1` at once). -/
  | wait (reaped : Bool)
  /-- The allocation `pids = calloc(numPar, sizeof(pid_t))`. -/
  | allocPids (numPar : Nat)
  /-- The call `free(pids)`. -/
  | freePids
  /-- The call `cleanUp()`: `free(paths[i])` for every entry, then `free(paths)`. -/
  | cleanUp
  /-- The calls `free(cmdArr[i])` for `i < cmdArrSize`, then `free(cmdArr)`, of
  the `exit` branch of `processCmd`. -/
  | freeCmdArr (cmdArrSize : Nat)
  deriving DecidableEq

/-- The operating system as the shell process sees it. -/
structure OS where
  /-- Whether `access(path, X_OK) != -1`. -/
  access : CStr → Bool
  /-- The call `chdir(dir)` made in directory `cwd`: the new working directory, or `none` when
  the call returns `-1`. -/
  chdir : CStr → CStr → Option CStr
  /-- Whether the `n`-th call of `fork()` (counted from 0) creates a child. -/
  fork : Nat → Bool

/-- The state of the shell process: the global `paths`, the working directory,
the number of `fork()` calls made, the number of children not yet waited for,
and the actions so far. -/
structure Shell where
  paths : List CStr
  cwd : CStr
  forks : Nat
  children : Nat
  trace : List Action
  deriving DecidableEq

/-- How a piece of shell code ends: it returns to its caller, the process
terminates through `exit(code)`, or the behaviour is not defined (`NULL`
dereferenced, unassigned pointer used). -/
inductive Outcome
  | running (s : Shell)
  | exited (code : Int) (s : Shell)
  | fault
  deriving DecidableEq

/-- Appends actions to the trace. -/
def Shell.log (s : Shell) (as : List Action) : Shell :=
  { s with trace := s.trace ++ as }

/-- One call `wait(NULL)`. -/
def wait (s : Shell) : Shell :=
  if s.children = 0 then s.log [Action.wait false]
  else { s with children := s.children - 1, trace := s.trace ++ [Action.wait true] }

/-- The function `changeDir` (lsh.c 510-519). -/
def changeDir (os : OS) (s : Shell) (cmdArr : Argv) : Outcome :=
  match cmdArr[1]? with
  | some (some dir) =>
    match os.chdir s.cwd dir with
    | some cwd1 => Outcome.running { s with cwd := cwd1, trace := s.trace ++ [Action.chdir dir true] }
    | none => Outcome.running (s.log [Action.chdir dir false, Action.writeErr])
  | _ => Outcome.fault

/-- The function `forkCall` (lsh.c 461-502) in the parent: a failed `fork` writes the
error message; otherwise a child exists, and the parent waits at once
(serial) or stores the pid in `pids[pidIndex]` (parallel).  The child branch
runs in another process; `Action.spawn` records its arguments. -/
def forkCall (os : OS) (s : Shell) (cmdArr : Argv) (cmdArrSize pathIndex : Nat)
    (parallel : Bool) (pidIndex : Nat) : Outcome :=
  if os.fork s.forks = false then
    Outcome.running { s with forks := s.forks + 1,
                             trace := s.trace ++ [Action.forkFailed, Action.writeErr] }
  else
    let s1 : Shell := { s with forks := s.forks + 1, children := s.children + 1,
                               trace := s.trace ++ [Action.spawn cmdArr cmdArrSize pathIndex] }
    if parallel = false then Outcome.running (wait s1)
    else Outcome.running (s1.log [Action.storePid pidIndex])

/-- The function `processCmd` (lsh.c 328-366).  `cmdArr` is the memory from the pointer
passed on; `cmdArr[0]` is compared with `strcmp`, so it must not be `NULL`.
`offset` is the place of that pointer in the block `malloc` returned for the
token array: `0` when the array itself is passed (lsh.c 232, 306),
`multi[i]` when `executeParallel` passes `&cmdArr[multi[i]]` (lsh.c 736).  The
`exit` branch calls `cleanUp()`, frees the tokens and then calls
`free(cmdArr)` before `exit(0)`; `free` on a pointer into the middle of a
block has no defined result, so `exit(0)` is reached only with `offset = 0`. -/
def processCmd (os : OS) (s : Shell) (cmdArr : Argv) (cmdArrSize : Nat)
    (parallel : Bool) (pidIndex : Nat) (offset : Nat) : Outcome :=
  match cmdArr[0]? with
  | some (some cmd) =>
    if cmd = "exit".toList then
      if cmdArrSize = 1 then
        if offset = 0 then
          Outcome.exited 0 (s.log [Action.cleanUp, Action.freeCmdArr cmdArrSize])
        else Outcome.fault
      else Outcome.running (s.log [Action.writeErr])
    else if cmd = "cd".toList then
      if cmdArrSize = 2 then changeDir os s cmdArr
      else Outcome.running (s.log [Action.writeErr])
    else if cmd = "path".toList then
      match setPaths s.cwd cmdArr cmdArrSize with
      | some paths1 => Outcome.running { s with paths := paths1 }
      | none => Outcome.fault
    else
      match searchPaths os.access s.paths cmd with
      | some res =>
        if res = -1 then Outcome.running (s.log [Action.writeErr])
        else if res = -2 then Outcome.running s
        else forkCall os s cmdArr cmdArrSize res.toNat parallel pidIndex
      | none => Outcome.fault
  | _ => Outcome.fault

/-- The first loop of `executeParallel` (lsh.c 734-742) with `k` groups left,
at index `i` of `multi` (`i` advances by two per round). -/
def dispatchLoop (os : OS) (cmdArr : Argv) (multi : List Nat) : Nat → Nat → Shell → Outcome
  | 0, _, s => Outcome.running s
  | k + 1, i, s =>
    match multi[i + 1]? with
    | some len =>
      if len ≠ 0 then
        match multi[i]? with
        | some start =>
          match processCmd os s (cmdArr.drop start) len true i start with
          | Outcome.running s1 => dispatchLoop os cmdArr multi k (i + 2) s1
          | o => o
        | none => Outcome.fault
      else dispatchLoop os cmdArr multi k (i + 2) s
    | none => Outcome.fault

/-- The second loop of `executeParallel` (lsh.c 747-758): `n` calls of `wait(NULL)`. -/
def waitLoop : Nat → Shell → Shell
  | 0, s => s
  | n + 1, s => waitLoop n (wait s)

/-- The function `executeParallel` (lsh.c 729-762).  The local `goal` is counted but never
read, so it is left out. -/
def executeParallel (os : OS) (s : Shell) (cmdArr : Argv) (multi : List Nat)
    (numPar : Nat) : Outcome :=
  match dispatchLoop os cmdArr multi numPar 0 (s.log [Action.allocPids numPar]) with
  | Outcome.running s1 => Outcome.running ((waitLoop numPar s1).log [Action.freePids])
  | o => o

/-- Number of children launched in a trace. -/
def launched (tr : List Action) : Nat :=
  (tr.filter (fun a => match a with | Action.spawn _ _ _ => true | _ => false)).length

/-- Number of calls of `wait(NULL)` in a trace. -/
def waitCalls (tr : List Action) : Nat :=
  (tr.filter (fun a => match a with | Action.wait _ => true | _ => false)).length

/-- Number of calls of `wait(NULL)` in a trace that had a child to wait for. -/
def reaped (tr : List Action) : Nat :=
  tr.count (Action.wait true)

/-! ## Auxiliary notions for the statements -/

/-- Every `>` and `&` of the string stands alone between spaces: it follows a
space (or, with `b = true`, starts the string) and is followed by a space or
the end of the string.  `b` tells whether the character before the string is
a space or the start of the text. -/
def Isolated : Bool → CStr → Prop
  | _, [] => True
  | b, c :: cs =>
    ((c = '>' ∨ c = '&') → b = true ∧ (cs = [] ∨ ∃ r, cs = ' ' :: r)) ∧ Isolated (c == ' ') cs

/-- The return value of `checkRedirect` read off the tokens still to be visited
(none of them at index 0), given the locals `counter` and `penultimate`: a `>`
in last place returns `-1` at once; a `>` elsewhere is counted, and sets
`penultimate` when exactly one token follows it. -/
def redirectCode : List CStr → Nat → Bool → Int
  | [], c, p => checkRedirectFinish c p
  | [t], c, p => if t = ['>'] then -1 else checkRedirectFinish c p
  | t :: u :: us, c, p =>
    if t = ['>'] then redirectCode (u :: us) (c + 1) (if us = [] then true else p)
    else redirectCode (u :: us) c p

/-- The segments obtained by splitting a token sequence at each `&` token (the
`&` belongs to no segment); there is one more segment than there are `&`. -/
def splitAmp : List CStr → List (List CStr)
  | [] => [[]]
  | t :: ts =>
    if t = ['&'] then [] :: splitAmp ts
    else
      match splitAmp ts with
      | seg :: segs => (t :: seg) :: segs
      | [] => [[t]]

/-- One iteration of the `while (true)` loop of `interactiveMode` (lsh.c 201-242;
`batchMode` 279-312 has the same body) on a line whose end-of-line character
is already cut. -/
def runLine (os : OS) (s : Shell) (line : CStr) : Outcome :=
  match tokenize line with
  | some (cmdArr, counter) =>
    match checkParallel cmdArr counter with
    | some numPar =>
      if numPar = 1 then processCmd os s cmdArr counter false 0 0
      else
        match processParallel cmdArr counter numPar with
        | some (parArr, cmdArr1) => executeParallel os s cmdArr1 parArr numPar
        | none => Outcome.fault
    | none => Outcome.fault
  | none => Outcome.fault

/-- A system in which `/bin/ls` is the only executable file, no directory can
be entered, and every `fork` succeeds. -/
def osLs : OS :=
  { access := fun p => p == "/bin/ls".toList
    chdir := fun _ _ => none
    fork := fun _ => true }

/-- The shell as `controller` leaves it before the first line is read:
`paths = {"/bin"}`, no child, nothing done yet; the working directory is
taken to be `/home`. -/
def shellInit : Shell :=
  { paths := ["/bin".toList], cwd := "/home".toList, forks := 0, children := 0, trace := [] }

/-- The entry `processParallel` leaves in `cmdArr` for a token: `NULL` for `&`,
the token itself otherwise. -/
def ampNull (t : CStr) : Option CStr :=
  if t = ['&'] then none else some t

/-- The ints that the loop of `processParallel` stores in `multi`, one after
the other, while it visits the tokens from index `i` on with the locals
`next` and `counter`, and the value of `counter` when the loop ends. -/
def parallelWrites : Nat → Bool → Nat → List CStr → List Nat × Nat
  | _, _, c, [] => ([], c)
  | i, next, c, t :: ts =>
    if t = ['&'] then
      (c :: (parallelWrites (i + 1) true 0 ts).1, (parallelWrites (i + 1) true 0 ts).2)
    else if next = true ∨ i = 0 then
      (i :: (parallelWrites (i + 1) false (c + 1) ts).1,
        (parallelWrites (i + 1) false (c + 1) ts).2)
    else parallelWrites (i + 1) next (c + 1) ts

/-- No two `&` tokens stand next to each other. -/
def noAdjacentAmp : List CStr → Bool
  | t :: u :: rest => !(t == ['&'] && u == ['&']) && noAdjacentAmp (u :: rest)
  | _ => true

/-- The (start, length) pairs of the segments `segs` laid out from index `i`
with one `&` between neighbours: the length of each segment, and for a
non-empty segment the index of its first token (a segment of length 0 has
start 0). -/
def groupPairs : Nat → List (List CStr) → List (Nat × Nat)
  | _, [] => []
  | i, seg :: more =>
    (if seg = [] then 0 else i, seg.length) :: groupPairs (i + seg.length + 1) more

/-- The ints of a list of pairs, in order. -/
def flattenPairs : List (Nat × Nat) → List Nat
  | [] => []
  | (a, b) :: rest => a :: b :: flattenPairs rest

/-- The token sequence that has the given segments, with one `&` between
neighbours. -/
def joinAmp : List (List CStr) → List CStr
  | [] => []
  | [seg] => seg
  | seg :: more => seg ++ ['&'] :: joinAmp more

/-- Number of ints of `multi` that `processParallel` leaves as `calloc` set them
at the end of what it stores: one when the last of the segments is empty (no
start index is stored for it), none otherwise. -/
def padOf (segs : List (List CStr)) : Nat :=
  match segs.getLast? with
  | some [] => 1
  | _ => 0

/-- The string is a sequence of non-empty words of non-white-space characters
with exactly one space between neighbours: it ends after a word, every space
follows a word and is followed by one, and it has no other white space.  `b`
tells whether the text before the string ends with a character of a word, so
that `Spaced false s` also says `s` starts with a word. -/
def Spaced : Bool → CStr → Prop
  | b, [] => b = true
  | b, c :: cs =>
    if c = ' ' then b = true ∧ Spaced false cs else isspace c = false ∧ Spaced true cs

/-- Like `Spaced`, except that the string may end with one space after its last
word: the shape of `newStr` when the loop of `removeWhiteSpace` ends. -/
def SpacedT : Bool → CStr → Prop
  | b, [] => b = true
  | b, c :: cs =>
    if c = ' ' then b = true ∧ (cs = [] ∨ SpacedT false cs)
    else isspace c = false ∧ SpacedT true cs

/-- The last step of `removeWhiteSpace` (lsh.c 620-622) on the string the loop
left in `newStr`: a trailing white-space character is cut. -/
def trimLast (newStr : CStr) : CStr :=
  match newStr.getLast? with
  | some c => if isspace c then newStr.dropLast else newStr
  | none => newStr

/-! ## The child side of `forkCall` -/

/-- The `NULL`-terminated vector `execvp` reads from `cmdArr[0]` on: the entries
before the first `NULL`; `none` when the memory modelled holds no `NULL`. -/
def execArgv : Argv → Option (List CStr)
  | [] => none
  | none :: _ => some []
  | some t :: rest => (execArgv rest).map (fun argv => t :: argv)

/-- What the child process does to the outside, in order. -/
inductive ChildAction
  /-- The call `write(STDERR_FILENO, error_message, strlen(error_message))`. -/
  | writeErr
  /-- The call `close(fd)`; `STDOUT_FILENO` is 1 and `STDERR_FILENO` is 2. -/
  | close (fd : Nat)
  /-- The call `open(file, O_CREAT|O_WRONLY|O_TRUNC, S_IRWXU)`. -/
  | openTrunc (file : CStr)
  /-- The call `putenv(s)`. -/
  | putenv (s : CStr)
  /-- The call `execvp(file, argv)`. -/
  | execvp (file : CStr) (argv : List CStr)
  deriving DecidableEq

/-- How the child branch of `forkCall` ends: `execvp` replaced the program, or
`forkCall` returns to its caller (in the child, which goes on running the
caller's code), or the behaviour is not defined. -/
inductive ChildEnd
  | replaced
  | returned
  | fault
  deriving DecidableEq

/-- The function `redirect` (lsh.c 578-585): closes the standard output and error, then
opens `cmdArr[cmdArrSize-1]`. -/
def redirect (cmdArr : Argv) (cmdArrSize : Nat) : Option (List ChildAction) :=
  if cmdArrSize = 0 then none
  else
    match cmdArr[cmdArrSize - 1]? with
    | some (some file) =>
      some [ChildAction.close 1, ChildAction.close 2, ChildAction.openTrunc file]
    | _ => none

/-- Lines 478-489 of `forkCall`, in the child: `PATH=/bin:` followed by
`paths[pathIndex]` is put into the environment, then `execvp(cmdArr[0], cmdArr)`
is called, and `return` follows it.  `execOk file argv env` tells whether
`execvp` replaces the program; `done` is what the child did before. -/
def childExec (execOk : CStr → List CStr → CStr → Bool) (paths : List CStr) (cmdArr : Argv)
    (pathIndex : Nat) (done : List ChildAction) : List ChildAction × ChildEnd :=
  match paths[pathIndex]?, cmdArr[0]?, execArgv cmdArr with
  | some p, some (some file), some argv =>
    (done ++ [ChildAction.putenv ("PATH=/bin:".toList ++ p), ChildAction.execvp file argv],
      if execOk file argv ("PATH=/bin:".toList ++ p) = true then ChildEnd.replaced
      else ChildEnd.returned)
  | _, _, _ => (done, ChildEnd.fault)

/-- The function `forkCall` (lsh.c 469-490) in the child (`rc == 0`): what the child does
and how the branch ends. -/
def forkCallChild (execOk : CStr → List CStr → CStr → Bool) (paths : List CStr)
    (cmdArr : Argv) (cmdArrSize pathIndex : Nat) : List ChildAction × ChildEnd :=
  match checkRedirect cmdArr cmdArrSize with
  | some (checkRedirRes, cmdArr1) =>
    if checkRedirRes = 1 then
      match redirect cmdArr1 cmdArrSize with
      | some acts => childExec execOk paths cmdArr1 pathIndex acts
      | none => ([], ChildEnd.fault)
    else if checkRedirRes = -1 then ([ChildAction.writeErr], ChildEnd.returned)
    else childExec execOk paths cmdArr1 pathIndex []
  | none => ([], ChildEnd.fault)

/-- A system in which `access("/bin/.", X_OK)` succeeds, as it does for a
directory that may be searched, nothing else is executable, no directory can
be entered, and every `fork` succeeds. -/
def osDot : OS :=
  { access := fun p => p == "/bin/.".toList
    chdir := fun _ _ => none
    fork := fun _ => true }

/-- The entry `setPaths` is to store for the argument `e` in the
working directory `cwd`: `/bin` and `/usr/bin` as they are, another entry as
`cwd + "/" + e`. -/
def storedPath (cwd e : CStr) : CStr :=
  if e = "/bin".toList ∨ e = "/usr/bin".toList then e else cwd ++ ['/'] ++ e

/-- Dispatching a sequence of commands through `processCmd`, one after the
other, each given as `(cmdArr, cmdArrSize, parallel, pidIndex, offset)`; it
stops at the first command that does not return. -/
def dispatchAll (os : OS) : Shell → List (Argv × Nat × Bool × Nat × Nat) → Outcome
  | s, [] => Outcome.running s
  | s, c :: cs =>
    match processCmd os s c.1 c.2.1 c.2.2.1 c.2.2.2.1 c.2.2.2.2 with
    | Outcome.running s1 => dispatchAll os s1 cs
    | o => o

end Lsh

namespace Lsh

/-! ## Tokenizer: lemmas -/

theorem removeWhiteSpaceLoop_acc (cs : CStr) (p sn : Bool) (acc : CStr) :
    removeWhiteSpaceLoop cs p sn acc = acc ++ removeWhiteSpaceLoop cs p sn [] := by
  induction cs generalizing p sn acc with
  | nil => simp [removeWhiteSpaceLoop]
  | cons c cs ih =>
    unfold removeWhiteSpaceLoop
    split_ifs
    · rw [ih, ih _ _ ([] ++ [c])]; simp
    · rw [ih, ih _ _ ([] ++ [' '])]; simp
    · exact ih _ _ _

theorem strsep_length (s r : CStr) (h : (strsep s).2 = some r) : r.length < s.length := by
  induction s with
  | nil => simp [strsep] at h
  | cons c cs ih =>
    unfold strsep at h
    split_ifs at h with hc
    · simp at h; subst h; simp
    · simp at h; have := ih h; simp; omega

theorem strsepLoop_fuel_eq (f1 f2 : Nat) (s : CStr) (h1 : s.length < f1) (h2 : s.length < f2) :
    strsepLoop f1 (some s) = strsepLoop f2 (some s) := by
  induction f1 generalizing f2 s with
  | zero => omega
  | succ n ih =>
    cases f2 with
    | zero => omega
    | succ m =>
      simp only [strsepLoop]
      congr 1
      cases hr : (strsep s).2 with
      | none => cases n <;> cases m <;> simp [strsepLoop]
      | some r =>
        have := strsep_length s r hr
        exact ih m r (by omega) (by omega)

/-- More fuel than `strlen + 1` does not change the tokens: the loop has ended
by then. -/
theorem strsepLoop_fuel (fuel : Nat) (s : CStr) (h : s.length < fuel) :
    strsepLoop fuel (some s) = strsepLoop (s.length + 1) (some s) :=
  strsepLoop_fuel_eq fuel (s.length + 1) s h (by omega)

theorem strsepCount_eq (fuel : Nat) (p : Option CStr) :
    strsepCount fuel p = (strsepLoop fuel p).length := by
  induction fuel generalizing p with
  | zero => simp [strsepCount, strsepLoop]
  | succ n ih =>
    cases p with
    | none => simp [strsepCount, strsepLoop]
    | some s => simp [strsepCount, strsepLoop, ih]

theorem createWhiteSpace_length (str : CStr) :
    (createWhiteSpaceChars str).length = str.length + 2 * (str.count '>' + str.count '&') := by
  induction str with
  | nil => rfl
  | cons c cs ih =>
    unfold createWhiteSpaceChars
    by_cases h1 : c = '>'
    · subst h1
      simp [List.count_cons, ih]; omega
    · by_cases h2 : c = '&'
      · subst h2
        simp [List.count_cons, ih]; omega
      · have e1 : (c == '>') = false := by simpa using h1
        have e2 : (c == '&') = false := by simpa using h2
        simp [List.count_cons, ih, h1, h2, e1, e2]; omega

/-- The loop of `createWhiteSpace` stores the characters of
`createWhiteSpaceChars` when they fit the `cap` bytes, and has no result
otherwise. -/
theorem createWhiteSpaceLoop_eq (cap : Nat) (cs acc : CStr) (h : acc.length ≤ cap) :
    createWhiteSpaceLoop cap cs acc =
      if acc.length + (createWhiteSpaceChars cs).length ≤ cap then
        some (acc ++ createWhiteSpaceChars cs)
      else none := by
  induction cs generalizing acc with
  | nil => simp [createWhiteSpaceLoop, createWhiteSpaceChars, h]
  | cons c cs ih =>
    unfold createWhiteSpaceLoop createWhiteSpaceChars
    by_cases hc : c = '>' ∨ c = '&'
    · rw [if_pos hc, if_pos hc]
      by_cases hb : acc.length + 2 < cap
      · rw [if_pos hb, ih _ (by simp; omega)]
        have e : (acc ++ [' ', c, ' ']).length + (createWhiteSpaceChars cs).length
            = acc.length + (' ' :: c :: ' ' :: createWhiteSpaceChars cs).length := by
          simp; omega
        rw [e]
        simp
      · rw [if_neg hb, if_neg]
        simp; omega
    · rw [if_neg hc, if_neg hc]
      by_cases hb : acc.length < cap
      · rw [if_pos hb, ih _ (by simp; omega)]
        have e : (acc ++ [c]).length + (createWhiteSpaceChars cs).length
            = acc.length + (c :: createWhiteSpaceChars cs).length := by
          simp; omega
        rw [e]
        simp
      · rw [if_neg hb, if_neg]
        simp; omega

/-- The function `createWhiteSpace` returns the spaced copy exactly for the lines with at
most nine `>` and `&`; a line with ten or more has no defined result. -/
theorem createWhiteSpace_eq (str : CStr) :
    createWhiteSpace str =
      if str.count '>' + str.count '&' ≤ 9 then some (createWhiteSpaceChars str) else none := by
  unfold createWhiteSpace
  rw [createWhiteSpaceLoop_eq _ _ _ (by simp)]
  simp only [List.length_nil, Nat.zero_add, List.nil_append, createWhiteSpace_length,
    createWhiteSpaceAlloc]
  by_cases h : str.count '>' + str.count '&' ≤ 9
  · rw [if_pos (by omega), if_pos h]
    simp only [createWhiteSpace_length]
    rw [if_pos (by omega)]
  · rw [if_neg h]
    by_cases h2 : str.length + 2 * (str.count '>' + str.count '&') ≤ str.length + 20
    · rw [if_pos h2]
      simp only [createWhiteSpace_length]
      rw [if_neg (by omega)]
    · rw [if_neg h2]

theorem tokenize_eq (line : CStr) :
    tokenize line =
      if line.count '>' + line.count '&' ≤ 9 then
        some ((tokens line).map some ++ [none], (tokens line).length)
      else none := by
  unfold tokenize
  rw [createWhiteSpace_eq]
  by_cases h : line.count '>' + line.count '&' ≤ 9
  · rw [if_pos h, if_pos h]
    simp [tokens, strsepCount_eq]
  · rw [if_neg h, if_neg h]

theorem tokenize_fits (line : CStr) (h : line.count '>' + line.count '&' ≤ 9) :
    tokenize line = some ((tokens line).map some ++ [none], (tokens line).length) := by
  rw [tokenize_eq, if_pos h]

theorem tokenize_some (line : CStr) (cmdArr : Argv) (counter : Nat)
    (h : tokenize line = some (cmdArr, counter)) :
    line.count '>' + line.count '&' ≤ 9 ∧
      cmdArr = (tokens line).map some ++ [none] ∧ counter = (tokens line).length := by
  rw [tokenize_eq] at h
  by_cases hf : line.count '>' + line.count '&' ≤ 9
  · rw [if_pos hf] at h
    simp only [Option.some.injEq, Prod.mk.injEq] at h
    exact ⟨hf, h.1.symm, h.2.symm⟩
  · rw [if_neg hf] at h
    exact absurd h (by simp)

theorem isolated_mono (b : Bool) (s : CStr) (h : Isolated b s) : Isolated true s := by
  cases s with
  | nil => trivial
  | cons c cs =>
    simp only [Isolated] at h ⊢
    exact ⟨fun hc => ⟨trivial, (h.1 hc).2⟩, h.2⟩

theorem isolated_dropLast (b : Bool) (s : CStr) (h : Isolated b s) : Isolated b s.dropLast := by
  induction s generalizing b with
  | nil => trivial
  | cons c cs ih =>
    cases cs with
    | nil => simp [List.dropLast, Isolated]
    | cons d ds =>
      simp only [List.dropLast, Isolated] at h ⊢
      refine ⟨fun hc => ⟨(h.1 hc).1, ?_⟩, ?_⟩
      · rcases (h.1 hc).2 with h0 | ⟨r, hr⟩
        · cases h0
        · have hd : d = ' ' := (List.cons.inj hr).1
          have hds : ds = r := (List.cons.inj hr).2
          subst hd
          cases ds with
          | nil => left; rfl
          | cons e es => right; exact ⟨_, rfl⟩
      · have := ih (c == ' ') h.2
        simpa [List.dropLast, Isolated] using this

theorem isspace_special (c : Char) (hc : c = '>' ∨ c = '&') : isspace c = false := by
  rcases hc with rfl | rfl <;> decide

theorem isolated_removeLoop (line : CStr) (p sn : Bool) :
    Isolated (p || !sn) (removeWhiteSpaceLoop (createWhiteSpaceChars line) p sn []) := by
  induction line generalizing p sn with
  | nil => simp [createWhiteSpaceChars, removeWhiteSpaceLoop, Isolated]
  | cons c cs ih =>
    unfold createWhiteSpaceChars
    split_ifs with hc
    · have hsp := isspace_special c hc
      have hne : (c == ' ') = false := by rcases hc with rfl | rfl <;> decide
      have hC := ih true true
      have key : ∀ q, Isolated q (' ' :: removeWhiteSpaceLoop (createWhiteSpaceChars cs) true true []) := by
        intro q
        simp only [Isolated]
        exact ⟨fun h => by rcases h with h | h <;> simp at h, by simpa using hC⟩
      by_cases hB : p = false ∧ sn = true
      · obtain ⟨rfl, rfl⟩ := hB
        simp only [removeWhiteSpaceLoop, hsp, show isspace ' ' = true from rfl]
        simp only [List.nil_append, Bool.false_eq_true, and_self, if_true, if_false,
          Bool.true_eq_false, false_and]
        rw [removeWhiteSpaceLoop_acc]
        simp only [List.cons_append, List.nil_append, Isolated]
        refine ⟨fun h => by rcases h with h | h <;> simp at h, ?_, ?_⟩
        · intro _; exact ⟨by simp, Or.inr ⟨_, rfl⟩⟩
        · rw [hne]; exact key false
      · have hflag : (p || !sn) = true := by
          cases p <;> cases sn <;> simp_all
        rw [hflag]
        simp only [removeWhiteSpaceLoop, hsp, show isspace ' ' = true from rfl]
        simp only [Bool.true_eq_false, if_false, hB, if_true, List.nil_append,
          Bool.false_eq_true, and_self]
        rw [removeWhiteSpaceLoop_acc]
        simp only [List.cons_append, List.nil_append, Isolated]
        refine ⟨fun _ => ⟨trivial, Or.inr ⟨_, rfl⟩⟩, ?_⟩
        rw [hne]; exact key false
    · simp only [removeWhiteSpaceLoop]
      split_ifs with h1 h2
      · rw [removeWhiteSpaceLoop_acc]
        simp only [List.nil_append, List.cons_append, Isolated]
        refine ⟨fun h => absurd h hc, ?_⟩
        have hne : (c == ' ') = false := by
          cases hcs : (c == ' ')
          · rfl
          · have : c = ' ' := by simpa using hcs
            subst this; simp [isspace] at h1
        rw [hne]
        simpa using ih false true
      · rw [removeWhiteSpaceLoop_acc]
        simp only [List.nil_append, List.cons_append, Isolated]
        refine ⟨fun h => by rcases h with h | h <;> simp at h, ?_⟩
        simpa using ih true sn
      · exact ih p sn

theorem isolated_removeWhiteSpace (line : CStr) :
    Isolated true (removeWhiteSpace (createWhiteSpaceChars line)) := by
  have h := isolated_removeLoop line false false
  simp only [Bool.not_false, Bool.or_true] at h
  unfold removeWhiteSpace
  simp only
  split
  · split_ifs
    · exact isolated_dropLast _ _ h
    · exact h
  · exact h

theorem strsep_isolated_false (s : CStr) (h : Isolated false s) :
    (∀ c ∈ (strsep s).1, c ≠ '>' ∧ c ≠ '&') ∧ ∀ r, (strsep s).2 = some r → Isolated true r := by
  induction s with
  | nil => simp [strsep]
  | cons c cs ih =>
    simp only [Isolated] at h
    have hc : ¬ (c = '>' ∨ c = '&') := fun hc => by simpa using (h.1 hc).1
    unfold strsep
    split_ifs with hsp
    · subst hsp
      refine ⟨by simp, fun r hr => ?_⟩
      simp at hr; subst hr
      simpa using h.2
    · have hne : (c == ' ') = false := by simpa using hsp
      rw [hne] at h
      have := ih h.2
      refine ⟨?_, this.2⟩
      intro d hd
      simp only [List.mem_cons] at hd
      rcases hd with rfl | hd
      · exact ⟨fun e => hc (Or.inl e), fun e => hc (Or.inr e)⟩
      · exact this.1 d hd

theorem strsep_isolated_true (s : CStr) (h : Isolated true s) :
    ((∀ c ∈ (strsep s).1, c ≠ '>' ∧ c ≠ '&') ∨ (strsep s).1 = ['>'] ∨ (strsep s).1 = ['&']) ∧
      ∀ r, (strsep s).2 = some r → Isolated true r := by
  cases s with
  | nil => simp [strsep]
  | cons c cs =>
    simp only [Isolated] at h
    by_cases hc : c = '>' ∨ c = '&'
    · have hnsp : c ≠ ' ' := by rcases hc with rfl | rfl <;> decide
      rcases (h.1 hc).2 with h0 | ⟨r, hr⟩
      · subst h0
        simp only [strsep, hnsp, if_false]
        refine ⟨Or.inr ?_, by simp⟩
        rcases hc with rfl | rfl <;> simp
      · subst hr
        simp only [strsep, hnsp, if_false, if_true]
        refine ⟨Or.inr ?_, ?_⟩
        · rcases hc with rfl | rfl <;> simp
        · intro r1 hr1
          simp at hr1; subst hr1
          have := h.2
          simp only [Isolated] at this
          simpa using this.2
    · by_cases hsp : c = ' '
      · subst hsp
        simp only [strsep, if_true]
        refine ⟨Or.inl (by simp), fun r hr => ?_⟩
        simp at hr; subst hr
        simpa using h.2
      · have hne : (c == ' ') = false := by simpa using hsp
        rw [hne] at h
        have := strsep_isolated_false cs h.2
        simp only [strsep, hsp, if_false]
        refine ⟨Or.inl ?_, this.2⟩
        intro d hd
        simp only [List.mem_cons] at hd
        rcases hd with rfl | hd
        · exact ⟨fun e => hc (Or.inl e), fun e => hc (Or.inr e)⟩
        · exact this.1 d hd

theorem strsepLoop_isolated (fuel : Nat) (s : CStr) (h : Isolated true s) (t : CStr)
    (ht : t ∈ strsepLoop fuel (some s)) (hs : '>' ∈ t ∨ '&' ∈ t) : t = ['>'] ∨ t = ['&'] := by
  induction fuel generalizing s with
  | zero => simp [strsepLoop] at ht
  | succ n ih =>
    simp only [strsepLoop, List.mem_cons] at ht
    have hS := strsep_isolated_true s h
    rcases ht with rfl | ht
    · rcases hS.1 with h1 | h1
      · rcases hs with hs | hs
        · exact absurd rfl (h1 _ hs).1
        · exact absurd rfl (h1 _ hs).2
      · exact h1
    · cases hr : (strsep s).2 with
      | none => rw [hr] at ht; cases n <;> simp [strsepLoop] at ht
      | some r =>
        rw [hr] at ht
        exact ih r (hS.2 r hr) ht

theorem count_createWhiteSpace (x : Char) (hx : x ≠ ' ') (line : CStr) :
    (createWhiteSpaceChars line).count x = line.count x := by
  induction line with
  | nil => rfl
  | cons c cs ih =>
    have hsp : (' ' == x) = false := by
      simpa using fun e : ' ' = x => hx e.symm
    unfold createWhiteSpaceChars
    split_ifs
    · simp only [List.count_cons, hsp, ih]; simp
    · simp only [List.count_cons, ih]

theorem count_removeWhiteSpaceLoop (x : Char) (hx : isspace x = false) (cs : CStr)
    (p sn : Bool) : (removeWhiteSpaceLoop cs p sn []).count x = cs.count x := by
  have hsp : (' ' == x) = false := by
    cases h : (' ' == x)
    · rfl
    · have : ' ' = x := by simpa using h
      subst this; simp [isspace] at hx
  induction cs generalizing p sn with
  | nil => rfl
  | cons c cs ih =>
    unfold removeWhiteSpaceLoop
    split_ifs with h1 h2
    · rw [removeWhiteSpaceLoop_acc]
      simp only [List.nil_append, List.cons_append, List.count_cons, ih]
    · have hcx : (c == x) = false := by
        cases h : (c == x)
        · rfl
        · have : c = x := by simpa using h
          subst this; rw [hx] at h1; exact absurd rfl h1
      rw [removeWhiteSpaceLoop_acc]
      simp only [List.nil_append, List.cons_append, List.count_cons, ih, hsp, hcx]
    · have hcx : (c == x) = false := by
        cases h : (c == x)
        · rfl
        · have : c = x := by simpa using h
          subst this; rw [hx] at h1; exact absurd rfl h1
      simp only [List.count_cons, ih, hcx]; simp

theorem count_removeWhiteSpace (x : Char) (hx : isspace x = false) (str : CStr) :
    (removeWhiteSpace str).count x = str.count x := by
  have hloop := count_removeWhiteSpaceLoop x hx str false false
  unfold removeWhiteSpace
  simp only
  split
  · rename_i c hc
    split_ifs with hsp
    · have hcx : (c == x) = false := by
        cases h : (c == x)
        · rfl
        · have : c = x := by simpa using h
          subst this; rw [hx] at hsp; cases hsp
      have hl := List.dropLast_append_getLast? c hc
      rw [← hl, List.count_append] at hloop
      simpa [List.count_cons, hcx] using hloop
    · exact hloop
  · exact hloop

theorem count_strsep (x : Char) (hx : x ≠ ' ') (s : CStr) :
    s.count x = (strsep s).1.count x +
      (match (strsep s).2 with
        | some r => r.count x
        | none => 0) := by
  induction s with
  | nil => rfl
  | cons c cs ih =>
    unfold strsep
    split_ifs with hc
    · subst hc
      have hsp : (' ' == x) = false := by
        simpa using fun e : ' ' = x => hx e.symm
      simp [List.count_cons, hsp]
    · simp only [List.count_cons]
      rw [ih]
      omega

theorem count_strsepLoop (x : Char) (hx : x = '>' ∨ x = '&') (fuel : Nat) (s : CStr)
    (h : Isolated true s) (hf : s.length < fuel) :
    (strsepLoop fuel (some s)).count [x] = s.count x := by
  have hxsp : x ≠ ' ' := by rcases hx with rfl | rfl <;> decide
  induction fuel generalizing s with
  | zero => omega
  | succ n ih =>
    simp only [strsepLoop, List.count_cons]
    have hS := strsep_isolated_true s h
    have hc := count_strsep x hxsp s
    have htok : (strsep s).1.count x = if ((strsep s).1 == [x]) = true then 1 else 0 := by
      rcases hS.1 with h1 | h1 | h1
      · have hnot : x ∉ (strsep s).1 := by
          intro hm
          rcases hx with rfl | rfl
          · exact (h1 _ hm).1 rfl
          · exact (h1 _ hm).2 rfl
        have hne : ((strsep s).1 == [x]) = false := by
          cases hb : ((strsep s).1 == [x])
          · rfl
          · have : (strsep s).1 = [x] := by simpa using hb
            rw [this] at hnot; simp at hnot
        rw [List.count_eq_zero.mpr hnot, hne]; simp
      · rw [h1]; rcases hx with rfl | rfl <;> decide
      · rw [h1]; rcases hx with rfl | rfl <;> decide
    cases hr : (strsep s).2 with
    | none =>
      simp only [hr] at hc
      have : strsepLoop n none = [] := by cases n <;> rfl
      rw [this, hc, htok]; simp
    | some r =>
      simp only [hr] at hc
      have hlen := strsep_length s r hr
      rw [ih r (hS.2 r hr) (by omega), hc, htok]
      omega

theorem count_map_some (t : CStr) (l : List CStr) :
    (l.map some).count (some t) = l.count t := by
  induction l with
  | nil => rfl
  | cons a as ih =>
    simp only [List.map_cons, List.count_cons, ih]
    by_cases h : a = t
    · subst h; simp
    · have h1 : (a == t) = false := by simpa using h
      have h2 : (some a == some t) = false := by simpa using h
      rw [h1, h2]

/-! ## Redirection detector: lemmas -/

theorem getElem?_mid {α : Type} (pre : List α) (x : α) (tl : List α) :
    (pre ++ x :: tl)[pre.length]? = some x := by
  rw [List.getElem?_append_right (le_refl _)]; simp

theorem checkRedirectLoop_code (suf : List CStr) (pre rest : Argv) (c : Nat) (p : Bool)
    (size : Nat) (hsz : pre.length + suf.length = size) (hpre : pre ≠ []) :
    (checkRedirectLoop size suf.length pre.length (pre ++ (suf.map some ++ rest)) c p).map
        Prod.fst = some (redirectCode suf c p) := by
  induction suf generalizing pre c p with
  | nil => simp [checkRedirectLoop, redirectCode]
  | cons t ts ih =>
    have hlen : pre.length ≠ 0 := fun h => hpre (List.length_eq_zero.mp h)
    simp only [List.length_cons, List.map_cons, List.cons_append, checkRedirectLoop,
      getElem?_mid]
    simp only [List.length_cons] at hsz
    have hstep : ∀ (x : Option CStr) c1 p1,
        (checkRedirectLoop size ts.length (pre.length + 1)
          (pre ++ x :: (ts.map some ++ rest)) c1 p1).map Prod.fst
          = some (redirectCode ts c1 p1) := by
      intro x c1 p1
      have := ih (pre ++ [x]) c1 p1 (by simp; omega) (by simp)
      simpa using this
    by_cases ht : t = ['>']
    · simp only [ht, if_true, hlen, if_false]
      cases ts with
      | nil =>
        have : (pre.length : Int) = (size : Int) - 1 := by simp at hsz; omega
        simp [this, redirectCode]
      | cons u us =>
        have h1 : ¬ ((pre.length : Int) = (size : Int) - 1) := by simp at hsz; omega
        simp only [h1, if_false, List.set_append_right _ _ (le_refl _), Nat.sub_self,
          List.set_cons_zero]
        have h2 : ((pre.length : Int) = (size : Int) - 2) ↔ us = [] := by
          constructor
          · intro h
            have : us.length = 0 := by simp at hsz; omega
            exact List.length_eq_zero.mp this
          · intro h; subst h; simp at hsz; omega
        rw [hstep none]
        simp only [redirectCode, if_true, h2]
    · simp only [ht, if_false]
      rw [hstep (some t)]
      cases ts with
      | nil => simp [redirectCode, ht]
      | cons u us => simp [redirectCode, ht]

/-- The return value of `checkRedirect` on a slice of non-null tokens (followed by
anything). -/
theorem checkRedirect_code (toks : List CStr) (rest : Argv) :
    (checkRedirect (toks.map some ++ rest) toks.length).map Prod.fst =
      some (match toks with
        | [] => 0
        | t :: ts => if t = ['>'] then -1 else redirectCode ts 0 false) := by
  cases toks with
  | nil => simp [checkRedirect, checkRedirectLoop, checkRedirectFinish]
  | cons t ts =>
    simp only [checkRedirect, List.length_cons, List.map_cons, List.cons_append,
      checkRedirectLoop, List.getElem?_cons_zero]
    by_cases ht : t = ['>']
    · simp [ht]
    · simp only [ht, if_false]
      have := checkRedirectLoop_code ts [some t] rest 0 false (ts.length + 1)
        (by simp; omega) (by simp)
      simpa using this

theorem redirectCode_none (xs : List CStr) (c : Nat) (p : Bool) (h : ['>'] ∉ xs) :
    redirectCode xs c p = checkRedirectFinish c p := by
  induction xs generalizing c p with
  | nil => rfl
  | cons t ts ih =>
    have ht : t ≠ ['>'] := fun e => h (by simp [e])
    have hts : ['>'] ∉ ts := fun e => h (by simp [e])
    cases ts with
    | nil => simp [redirectCode, ht]
    | cons u us => simp only [redirectCode, ht, if_false]; exact ih c p hts

theorem redirectCode_last (xs : List CStr) (c : Nat) (p : Bool)
    (h : xs.getLast? = some ['>']) : redirectCode xs c p = -1 := by
  induction xs generalizing c p with
  | nil => simp at h
  | cons t ts ih =>
    cases ts with
    | nil =>
      have : t = ['>'] := by simpa using h
      simp [redirectCode, this]
    | cons u us =>
      have h1 : (u :: us).getLast? = some ['>'] := by
        simpa [List.getLast?_cons_cons] using h
      simp only [redirectCode]
      split_ifs <;> exact ih _ _ h1

theorem redirectCode_many (xs : List CStr) (c : Nat) (p : Bool)
    (h : 2 ≤ c + xs.count ['>']) : redirectCode xs c p = -1 := by
  induction xs generalizing c p with
  | nil =>
    simp at h
    have h1 : c ≠ 1 := by omega
    have h2 : c > 1 := by omega
    simp [redirectCode, checkRedirectFinish, h1, h2]
  | cons t ts ih =>
    cases ts with
    | nil =>
      by_cases ht : t = ['>']
      · simp [redirectCode, ht]
      · have hc : 2 ≤ c := by simpa [List.count_cons, ht] using h
        have h1 : c ≠ 1 := by omega
        have h2 : c > 1 := by omega
        simp [redirectCode, ht, checkRedirectFinish, h1, h2]
    | cons u us =>
      simp only [redirectCode]
      split_ifs with ht hus
      · apply ih; subst ht; simp [List.count_cons] at h ⊢; omega
      · apply ih; subst ht; simp [List.count_cons] at h ⊢; omega
      · apply ih
        have : (t :: u :: us).count ['>'] = (u :: us).count ['>'] := by
          rw [List.count_cons]; simp [ht]
        omega

theorem redirectCode_skip (x : CStr) (l : List CStr) (c : Nat) (p : Bool) (hl : l ≠ [])
    (hx : x ≠ ['>']) : redirectCode (x :: l) c p = redirectCode l c p := by
  cases l with
  | nil => exact absurd rfl hl
  | cons y ys => simp [redirectCode, hx]

theorem redirectCode_single (a b : List CStr) (c : Nat) (p : Bool) (ha : ['>'] ∉ a)
    (hb : ['>'] ∉ b) :
    redirectCode (a ++ ['>'] :: b) c p =
      if b = [] then -1 else checkRedirectFinish (c + 1) (if b.length = 1 then true else p) := by
  induction a with
  | nil =>
    cases b with
    | nil => simp [redirectCode]
    | cons u us =>
      simp only [List.nil_append, redirectCode, if_true]
      rw [redirectCode_none _ _ _ hb]
      cases us <;> simp
  | cons x xs ih =>
    have hx : x ≠ ['>'] := fun e => ha (by simp [e])
    have hxs : ['>'] ∉ xs := fun e => ha (by simp [e])
    rw [List.cons_append, redirectCode_skip _ _ _ _ (by simp) hx]
    exact ih hxs

/-! ## Tokenizer and redirection detector: claims -/

/-- C1: tokenization does not make every `>` and `&` a token of its own for
every input line: on the line of twenty `>` the loop of `createWhiteSpace`
stores 60 characters into the 40 bytes it allocated, and tokenization has no
defined result; this is so exactly for the lines with ten or more `>` and `&`.
For every other line the property holds: every token stored in `cmdArr` that
contains `>` or `&` is exactly `">"` or `"&"`, and `cmdArr` holds as many
tokens `">"` (`"&"`) as the line has characters `>` (`&`); the line
`ls  -la>out.txt` tokenizes to exactly `ls`, `-la`, `>`, `out.txt` (four
tokens, then the `NULL` terminator). -/
theorem tokenize_special_standalone :
    tokenize ">>>>>>>>>>>>>>>>>>>>".toList = none ∧
      (∀ (os : OS) (s : Shell), runLine os s ">>>>>>>>>>>>>>>>>>>>".toList = Outcome.fault) ∧
      (∀ line : CStr, tokenize line = none ↔ 10 ≤ line.count '>' + line.count '&') ∧
      (∀ (line : CStr) (cmdArr : Argv) (counter : Nat), tokenize line = some (cmdArr, counter) →
        (∀ t : CStr, some t ∈ cmdArr → ('>' ∈ t ∨ '&' ∈ t) → t = ['>'] ∨ t = ['&']) ∧
          cmdArr.count (some ['>']) = line.count '>' ∧
          cmdArr.count (some ['&']) = line.count '&') ∧
      tokenize "ls  -la>out.txt".toList =
        some ([some "ls".toList, some "-la".toList, some ">".toList, some "out.txt".toList,
          none], 4) := by
  have h20 : tokenize ">>>>>>>>>>>>>>>>>>>>".toList = none := by
    rw [tokenize_eq, if_neg (by decide)]
  refine ⟨h20, ?_, ?_, ?_, by decide⟩
  · intro os s
    unfold runLine
    rw [h20]
  · intro line
    rw [tokenize_eq]
    by_cases h : line.count '>' + line.count '&' ≤ 9
    · rw [if_pos h]
      constructor
      · intro h1
        exact absurd h1 (by simp)
      · intro h1
        omega
    · rw [if_neg h]
      constructor
      · intro _
        omega
      · intro _
        rfl
  · intro line cmdArr counter hl
    obtain ⟨_, rfl, _⟩ := tokenize_some line cmdArr counter hl
    refine ⟨?_, ?_⟩
    · intro t ht hs
      have ht1 : t ∈ tokens line := by simpa using ht
      exact strsepLoop_isolated _ _ (isolated_removeWhiteSpace line) t ht1 hs
    · have hcount : ∀ x : Char, (x = '>' ∨ x = '&') →
          ((tokens line).map some ++ [none]).count (some [x]) = line.count x := by
        intro x hx
        have hxsp : x ≠ ' ' := by rcases hx with rfl | rfl <;> decide
        simp only [List.count_append]
        rw [count_map_some]
        have h0 : List.count (some [x]) [(none : Option CStr)] = 0 := by
          simp [List.count_cons]
        rw [h0, Nat.add_zero]
        unfold tokens
        rw [count_strsepLoop x hx _ _ (isolated_removeWhiteSpace line) (by omega),
          count_removeWhiteSpace x (isspace_special x hx), count_createWhiteSpace x hxsp]
      exact ⟨hcount '>' (Or.inl rfl), hcount '&' (Or.inr rfl)⟩

theorem checkRedirect_split (toks : List CStr) (rest : Argv) :
    (∀ a b : List CStr, toks = a ++ ['>'] :: b → ['>'] ∉ a → ['>'] ∉ b →
        (checkRedirect (toks.map some ++ rest) toks.length).map Prod.fst =
          some (if a.length + 2 = toks.length ∧ a.length ≠ 0 then 1 else -1)) ∧
      (['>'] ∉ toks →
        (checkRedirect (toks.map some ++ rest) toks.length).map Prod.fst = some 0) := by
  constructor
  · intro a b htoks ha hb
    rw [checkRedirect_code]
    subst htoks
    cases a with
    | nil => simp
    | cons t a1 =>
      have ht : t ≠ ['>'] := fun e => ha (by simp [e])
      have ha1 : ['>'] ∉ a1 := fun e => ha (by simp [e])
      simp only [List.cons_append, ht, if_false]
      rw [redirectCode_single a1 b 0 false ha1 hb]
      cases b with
      | nil => simp
      | cons u us =>
        cases us with
        | nil => simp [checkRedirectFinish]
        | cons v vs =>
          have : ¬ ((t :: a1).length + 2 = (t :: (a1 ++ ['>'] :: u :: v :: vs)).length) := by
            simp only [List.length_cons, List.length_append]; omega
          simp [checkRedirectFinish, this]
  · intro h
    rw [checkRedirect_code]
    cases toks with
    | nil => rfl
    | cons t ts =>
      have ht : t ≠ ['>'] := fun e => h (by simp [e])
      have hts : ['>'] ∉ ts := fun e => h (by simp [e])
      simp [ht, redirectCode_none _ _ _ hts, checkRedirectFinish]

theorem count_one_split (x : CStr) (toks : List CStr) (h : toks.count x = 1) :
    ∃ a b, toks = a ++ x :: b ∧ x ∉ a ∧ x ∉ b ∧ toks.indexOf x = a.length := by
  induction toks with
  | nil => simp at h
  | cons t ts ih =>
    by_cases ht : t = x
    · subst ht
      refine ⟨[], ts, rfl, by simp, ?_, by simp [List.indexOf_cons]⟩
      have : ts.count t = 0 := by simpa [List.count_cons] using h
      exact List.count_eq_zero.mp this
    · have hc : ts.count x = 1 := by
        rw [List.count_cons] at h
        have : (t == x) = false := by simpa using ht
        simpa [this] using h
      obtain ⟨a, b, h1, h2, h3, h4⟩ := ih hc
      refine ⟨t :: a, b, by simp [h1], ?_, h3, ?_⟩
      · intro hm
        simp only [List.mem_cons] at hm
        rcases hm with e | e
        · exact ht e.symm
        · exact h2 e
      · have hb : (t == x) = false := by simpa using ht
        rw [List.indexOf_cons, hb, h4]; rfl

/-- C2: on a slice of non-null tokens with exactly one `>`, `checkRedirect`
returns `1` if the index of that token is the second-to-last one and is not
`0`, and `-1` otherwise; on a slice with no `>` it returns `0`. -/
theorem checkRedirect_one_marker (toks : List CStr) (rest : Argv) :
    (toks.count ['>'] = 1 →
        (checkRedirect (toks.map some ++ rest) toks.length).map Prod.fst =
          some (if toks.indexOf ['>'] + 2 = toks.length ∧ toks.indexOf ['>'] ≠ 0 then 1
            else -1)) ∧
      (toks.count ['>'] = 0 →
        (checkRedirect (toks.map some ++ rest) toks.length).map Prod.fst = some 0) := by
  constructor
  · intro h
    obtain ⟨a, b, h1, h2, h3, h4⟩ := count_one_split ['>'] toks h
    rw [h4]
    exact (checkRedirect_split toks rest).1 a b h1 h2 h3
  · intro h
    exact (checkRedirect_split toks rest).2 (List.count_eq_zero.mp h)

theorem checkRedirect_one_marker_witness :
    ["cmd".toList, ">".toList, "a".toList, "b".toList].count ['>'] = 1 ∧
      (checkRedirect (["cmd".toList, ">".toList, "a".toList, "b".toList].map some ++ [none])
          ["cmd".toList, ">".toList, "a".toList, "b".toList].length).map Prod.fst =
        some (if ["cmd".toList, ">".toList, "a".toList, "b".toList].indexOf ['>'] + 2 =
            ["cmd".toList, ">".toList, "a".toList, "b".toList].length ∧
              ["cmd".toList, ">".toList, "a".toList, "b".toList].indexOf ['>'] ≠ 0 then 1
          else -1) :=
  ⟨by decide,
    (checkRedirect_one_marker ["cmd".toList, ">".toList, "a".toList, "b".toList] [none]).1
      (by decide)⟩

/-- C3: on a slice of non-null tokens in which `>` occurs more than once, or is
the first token, or is the last token, `checkRedirect` returns `-1`. -/
theorem checkRedirect_invalid (toks : List CStr) (rest : Argv)
    (h : 2 ≤ toks.count ['>'] ∨ toks.head? = some ['>'] ∨ toks.getLast? = some ['>']) :
    (checkRedirect (toks.map some ++ rest) toks.length).map Prod.fst = some (-1) := by
  rw [checkRedirect_code]
  cases toks with
  | nil => simp at h
  | cons t ts =>
    by_cases ht : t = ['>']
    · simp [ht]
    · simp only [ht, if_false]
      congr 1
      rcases h with h | h | h
      · apply redirectCode_many
        have : (t :: ts).count ['>'] = ts.count ['>'] := by
          rw [List.count_cons]; simp [ht]
        omega
      · exact absurd (by simpa using h) ht
      · apply redirectCode_last
        cases ts with
        | nil => exact absurd (by simpa using h) ht
        | cons u us => simpa [List.getLast?_cons_cons] using h

theorem checkRedirect_invalid_witness :
    (2 ≤ ["ls".toList, ">".toList, ">".toList, "f".toList].count ['>'] ∨
        ["ls".toList, ">".toList, ">".toList, "f".toList].head? = some ['>'] ∨
        ["ls".toList, ">".toList, ">".toList, "f".toList].getLast? = some ['>']) ∧
      (checkRedirect (["ls".toList, ">".toList, ">".toList, "f".toList].map some ++ [none])
          ["ls".toList, ">".toList, ">".toList, "f".toList].length).map Prod.fst = some (-1) :=
  ⟨Or.inl (by decide),
    checkRedirect_invalid ["ls".toList, ">".toList, ">".toList, "f".toList] [none]
      (Or.inl (by decide))⟩

/-! ## Parallel grouper: claim -/

/-- C4, at the line `& a`: the tokens are `&`, `a`, so `numPar = 2` and the two
segments are the empty one and `a` (lengths 0 and 1, the second starting at
index 1); `processParallel` returns `multi = {0, 1, 1, 0}`, that is the pairs
(0,1) and (1,0), so the first group is the `NULL` that replaced `&` and
`executeParallel` hands it to `processCmd`, whose `strcmp` dereferences it.  On
`a & b c & d` it returns (0,1), (2,2), (5,1). -/
theorem processParallel_leading_amp :
    tokenize "& a".toList = some ([some ['&'], some ['a'], none], 2) ∧
      checkParallel [some ['&'], some ['a'], none] 2 = some 2 ∧
      (splitAmp [['&'], ['a']]).map List.length = [0, 1] ∧
      (processParallel [some ['&'], some ['a'], none] 2 2).map (fun r => pairsOf r.1) =
        some [(0, 1), (1, 0)] ∧
      processParallel [some ['&'], some ['a'], none] 2 2 =
        some ([0, 1, 1, 0], [none, some ['a'], none]) ∧
      runLine osLs shellInit "& a".toList = Outcome.fault ∧
      (processParallel [some ['a'], some ['&'], some ['b'], some ['c'], some ['&'], some ['d'],
          none] 6 3).map (fun r => pairsOf r.1) = some [(0, 1), (2, 2), (5, 1)] := by
  decide

/-! ## Path resolver: lemmas -/

theorem searchPathsTemp_eq (path command : CStr) :
    searchPathsTemp path command =
      if path.length + command.length + 2 ≤ 1028 then some (path ++ ['/'] ++ command)
      else none := by
  unfold searchPathsTemp strcpy strcat
  by_cases h : path.length + command.length + 2 ≤ 1028
  · rw [if_pos h, if_pos (by omega)]
    dsimp only
    rw [if_pos (by simp; omega)]
    dsimp only
    rw [if_pos (by simp; omega)]
  · rw [if_neg h]
    by_cases h1 : path.length + 1 ≤ 1028
    · rw [if_pos h1]
      dsimp only
      by_cases h2 : path.length + ['/'].length + 1 ≤ 1028
      · rw [if_pos h2]
        dsimp only
        rw [if_neg (by simp; omega)]
      · rw [if_neg h2]
    · rw [if_neg h1]

theorem searchPathsLoop_cases (access : CStr → Bool) (name : CStr) (ps : List CStr) (k : Nat)
    (hfit : ∀ p ∈ ps, p.length + name.length + 2 ≤ 1028) :
    (searchPathsLoop access name ps k = some (-1) ∧
        ∀ p ∈ ps, access (p ++ ['/'] ++ name) = false) ∨
      ∃ i p, searchPathsLoop access name ps k = some ((k + i : Nat) : Int) ∧ ps[i]? = some p ∧
        access (p ++ ['/'] ++ name) = true ∧
        ∀ j q, j < i → ps[j]? = some q → access (q ++ ['/'] ++ name) = false := by
  induction ps generalizing k with
  | nil => left; simp [searchPathsLoop]
  | cons p ps ih =>
    unfold searchPathsLoop
    rw [searchPathsTemp_eq, if_pos (hfit p (List.mem_cons_self p ps))]
    dsimp only
    have hfit1 : ∀ q ∈ ps, q.length + name.length + 2 ≤ 1028 :=
      fun q hq => hfit q (List.mem_cons_of_mem p hq)
    by_cases hp : access (p ++ ['/'] ++ name) = true
    · right
      refine ⟨0, p, by rw [if_pos hp]; rfl, by simp, hp, ?_⟩
      intro j q hj; omega
    · rw [if_neg hp]
      have hp1 : access (p ++ ['/'] ++ name) = false := by simpa using hp
      rcases ih (k + 1) hfit1 with ⟨h1, h2⟩ | ⟨i, q, h1, h2, h3, h4⟩
      · left
        refine ⟨h1, ?_⟩
        intro r hr
        simp only [List.mem_cons] at hr
        rcases hr with rfl | hr
        · exact hp1
        · exact h2 r hr
      · right
        refine ⟨i + 1, q, ?_, by simpa using h2, h3, ?_⟩
        · rw [h1]; congr 2; omega
        · intro j r hj hr
          cases j with
          | zero => simp at hr; subst hr; exact hp1
          | succ j => exact h4 j r (by omega) (by simpa using hr)

/-- With a non-empty list, a command name of 1027 characters or more does not
fit `temp` together with `paths[0]`, the `/` and the NUL. -/
theorem searchPaths_long (access : CStr → Bool) (p : CStr) (ps : List CStr) (name : CStr)
    (h : 1027 ≤ name.length) : searchPaths access (p :: ps) name = none := by
  have hne : name ≠ [] := by
    intro h0
    rw [h0] at h
    simp at h
  unfold searchPaths
  rw [if_neg hne]
  unfold searchPathsLoop
  rw [searchPathsTemp_eq, if_neg (by omega)]

/-- C5: `searchPaths` does not return an index or `-1` for every list and every
command name: with `paths = {"/bin"}` and a name of 1100 characters
`strcat(temp, command)` stores 1106 bytes into the 1028 bytes of `temp`, for
every executability oracle, and so does every name of 1027 characters or more
on a non-empty list.  It returns `-2` for the empty name whatever the list;
and when `paths[i] + "/" + name` with its NUL fits 1028 bytes for every entry,
it returns `-2` exactly for the empty name, the index `i` exactly when
`paths[i] + "/" + name` is executable and no earlier entry is, and `-1`
exactly when no entry is. -/
theorem searchPaths_first_match :
    (∀ access : CStr → Bool,
        searchPaths access ["/bin".toList] (List.replicate 1100 'a') = none) ∧
      (∀ (access : CStr → Bool) (p : CStr) (ps : List CStr) (name : CStr),
        1027 ≤ name.length → searchPaths access (p :: ps) name = none) ∧
      (∀ (access : CStr → Bool) (paths : List CStr), searchPaths access paths [] = some (-2)) ∧
      (∀ (access : CStr → Bool) (paths : List CStr) (name : CStr),
        (∀ p ∈ paths, p.length + name.length + 2 ≤ 1028) →
        (searchPaths access paths name = some (-2) ↔ name = []) ∧
          (name ≠ [] → ∀ i : Nat, (searchPaths access paths name = some (i : Int) ↔
            ∃ p, paths[i]? = some p ∧ access (p ++ ['/'] ++ name) = true ∧
              ∀ j q, j < i → paths[j]? = some q → access (q ++ ['/'] ++ name) = false)) ∧
          (name ≠ [] → (searchPaths access paths name = some (-1) ↔
            ∀ p ∈ paths, access (p ++ ['/'] ++ name) = false))) := by
  refine ⟨fun access => searchPaths_long access _ _ _
      (by rw [List.length_replicate]; omega), searchPaths_long,
    fun access paths => by simp [searchPaths], ?_⟩
  intro access paths name hfit
  have hcases := searchPathsLoop_cases access name paths 0 hfit
  refine ⟨?_, ?_, ?_⟩
  · constructor
    · intro h
      by_contra hne
      simp only [searchPaths, hne, if_false] at h
      rcases hcases with ⟨h1, -⟩ | ⟨i, p, h1, -⟩
      · rw [h1] at h; simp at h
      · rw [h1] at h; simp at h
    · intro h; simp [searchPaths, h]
  · intro hne i
    simp only [searchPaths, hne, if_false]
    constructor
    · intro h
      rcases hcases with ⟨h1, -⟩ | ⟨i1, p, h1, h2, h3, h4⟩
      · rw [h1] at h; simp at h
      · rw [h1] at h
        have : i1 = i := by simp at h; omega
        subst this
        exact ⟨p, h2, h3, h4⟩
    · rintro ⟨p, h2, h3, h4⟩
      rcases hcases with ⟨-, h5⟩ | ⟨i1, p1, h1, h21, h31, h41⟩
      · have hmem : p ∈ paths := List.getElem?_mem h2
        rw [h5 p hmem] at h3; cases h3
      · rw [h1]
        have : i1 = i := by
          rcases Nat.lt_trichotomy i1 i with hlt | heq | hgt
          · rw [h4 i1 p1 hlt h21] at h31; cases h31
          · exact heq
          · rw [h41 i p hgt h2] at h3; cases h3
        subst this; simp
  · intro hne
    simp only [searchPaths, hne, if_false]
    constructor
    · intro h
      rcases hcases with ⟨-, h5⟩ | ⟨i1, p, h1, -⟩
      · exact h5
      · rw [h1] at h; simp at h
    · intro h
      rcases hcases with ⟨h1, -⟩ | ⟨i1, p, -, h2, h3, -⟩
      · exact h1
      · rw [h p (List.getElem?_mem h2)] at h3; cases h3

/-! ## Dispatcher: lemmas -/

theorem waitCalls_append (a b : List Action) : waitCalls (a ++ b) = waitCalls a + waitCalls b := by
  simp [waitCalls]

theorem launched_append (a b : List Action) : launched (a ++ b) = launched a + launched b := by
  simp [launched]

theorem wait_waitCalls (s : Shell) : waitCalls (wait s).trace = waitCalls s.trace + 1 := by
  unfold wait
  split_ifs <;> simp [Shell.log, waitCalls_append] <;> rfl

theorem waitLoop_waitCalls (n : Nat) (s : Shell) :
    waitCalls (waitLoop n s).trace = waitCalls s.trace + n := by
  induction n generalizing s with
  | zero => rfl
  | succ n ih => simp only [waitLoop]; rw [ih, wait_waitCalls]; omega

theorem changeDir_waitCalls (os : OS) (s s1 : Shell) (cmdArr : Argv)
    (h : changeDir os s cmdArr = Outcome.running s1) :
    waitCalls s1.trace = waitCalls s.trace := by
  unfold changeDir at h
  split at h
  · split at h
    · cases h; simp [waitCalls_append]; rfl
    · cases h; simp [Shell.log, waitCalls_append]; rfl
  · cases h

theorem forkCall_parallel_waitCalls (os : OS) (s s1 : Shell) (cmdArr : Argv)
    (n i pid : Nat) (h : forkCall os s cmdArr n i true pid = Outcome.running s1) :
    waitCalls s1.trace = waitCalls s.trace := by
  unfold forkCall at h
  by_cases h1 : os.fork s.forks = false
  · rw [if_pos h1] at h
    cases h; simp [waitCalls_append]; rfl
  · rw [if_neg h1] at h
    simp only [Bool.true_eq_false, if_false] at h
    have h2 := Outcome.running.inj h
    subst h2
    show waitCalls ((s.trace ++ [Action.spawn cmdArr n i]) ++ [Action.storePid pid]) = _
    rw [waitCalls_append, waitCalls_append]; rfl

theorem processCmd_parallel_waitCalls (os : OS) (s s1 : Shell) (cmdArr : Argv)
    (n pid off : Nat) (h : processCmd os s cmdArr n true pid off = Outcome.running s1) :
    waitCalls s1.trace = waitCalls s.trace := by
  unfold processCmd at h
  split at h
  · split_ifs at h
    · cases h; simp [Shell.log, waitCalls_append]; rfl
    · exact changeDir_waitCalls os s s1 cmdArr h
    · cases h; simp [Shell.log, waitCalls_append]; rfl
    · split at h
      · cases h; rfl
      · cases h
    · split at h
      · split_ifs at h
        · cases h; simp [Shell.log, waitCalls_append]; rfl
        · cases h; rfl
        · exact forkCall_parallel_waitCalls os s s1 cmdArr n _ pid h
      · cases h
  · cases h

theorem dispatchLoop_waitCalls (os : OS) (cmdArr : Argv) (multi : List Nat) (k i : Nat)
    (s s1 : Shell) (h : dispatchLoop os cmdArr multi k i s = Outcome.running s1) :
    waitCalls s1.trace = waitCalls s.trace := by
  induction k generalizing i s with
  | zero => simp [dispatchLoop] at h; subst h; rfl
  | succ k ih =>
    unfold dispatchLoop at h
    split at h
    · split_ifs at h
      · split at h
        · split at h
          · rename_i s2 hp
            rw [ih _ _ h, processCmd_parallel_waitCalls os s s2 _ _ _ _ hp]
          · rename_i o ho
            rw [h] at ho
            exact absurd rfl (ho s1)
        · cases h
      · exact ih _ _ h
    · cases h

/-- Every batch from which `executeParallel` returns has called `wait(NULL)`
exactly `numPar` times, whatever its groups did. -/
theorem executeParallel_waitCalls (os : OS) (s s1 : Shell) (cmdArr : Argv) (multi : List Nat)
    (numPar : Nat) (h : executeParallel os s cmdArr multi numPar = Outcome.running s1) :
    waitCalls s1.trace = waitCalls s.trace + numPar := by
  unfold executeParallel at h
  split at h
  · rename_i s2 hd
    cases h
    have := dispatchLoop_waitCalls os cmdArr multi numPar 0 _ s2 hd
    simp only [Shell.log, waitCalls_append, waitLoop_waitCalls, this]
    simp [waitCalls]
  · rename_i o ho
    rw [h] at ho
    exact absurd rfl (ho s1)

theorem reaped_append (a b : List Action) : reaped (a ++ b) = reaped a + reaped b := by
  simp [reaped]

theorem forkCall_parallel_count (os : OS) (s s1 : Shell) (cmdArr : Argv)
    (n i pid : Nat) (h : forkCall os s cmdArr n i true pid = Outcome.running s1) :
    ∃ d, d ≤ 1 ∧ launched s1.trace = launched s.trace + d ∧ s1.children = s.children + d ∧
      reaped s1.trace = reaped s.trace := by
  unfold forkCall at h
  by_cases h1 : os.fork s.forks = false
  · rw [if_pos h1] at h
    cases h
    exact ⟨0, by omega, by simp [launched_append]; rfl, rfl, by simp [reaped_append]; rfl⟩
  · rw [if_neg h1] at h
    simp only [Bool.true_eq_false, if_false] at h
    have h2 := Outcome.running.inj h
    subst h2
    refine ⟨1, le_refl _, ?_, rfl, ?_⟩
    · show launched ((s.trace ++ [Action.spawn cmdArr n i]) ++ [Action.storePid pid]) = _
      rw [launched_append, launched_append]; rfl
    · show reaped ((s.trace ++ [Action.spawn cmdArr n i]) ++ [Action.storePid pid]) = _
      rw [reaped_append, reaped_append]; rfl

theorem changeDir_count (os : OS) (s s1 : Shell) (cmdArr : Argv)
    (h : changeDir os s cmdArr = Outcome.running s1) :
    launched s1.trace = launched s.trace ∧ s1.children = s.children ∧
      reaped s1.trace = reaped s.trace := by
  unfold changeDir at h
  split at h
  · split at h
    · cases h
      exact ⟨by simp [launched_append]; rfl, rfl, by simp [reaped_append]; rfl⟩
    · cases h
      exact ⟨by simp [Shell.log, launched_append]; rfl, rfl,
        by simp [Shell.log, reaped_append]; rfl⟩
  · cases h

theorem processCmd_parallel_count (os : OS) (s s1 : Shell) (cmdArr : Argv)
    (n pid off : Nat) (h : processCmd os s cmdArr n true pid off = Outcome.running s1) :
    ∃ d, d ≤ 1 ∧ launched s1.trace = launched s.trace + d ∧ s1.children = s.children + d ∧
      reaped s1.trace = reaped s.trace := by
  have herr : ∃ d, d ≤ 1 ∧ launched (s.log [Action.writeErr]).trace = launched s.trace + d ∧
      (s.log [Action.writeErr]).children = s.children + d ∧
      reaped (s.log [Action.writeErr]).trace = reaped s.trace :=
    ⟨0, by omega, by simp [Shell.log, launched_append]; rfl, rfl,
      by simp [Shell.log, reaped_append]; rfl⟩
  unfold processCmd at h
  split at h
  · split_ifs at h
    · cases h; exact herr
    · obtain ⟨h1, h2, h3⟩ := changeDir_count os s s1 cmdArr h
      exact ⟨0, by omega, h1, h2, h3⟩
    · cases h; exact herr
    · split at h
      · cases h; exact ⟨0, by omega, rfl, rfl, rfl⟩
      · cases h
    · split at h
      · split_ifs at h
        · cases h; exact herr
        · cases h; exact ⟨0, by omega, rfl, rfl, rfl⟩
        · exact forkCall_parallel_count os s s1 cmdArr n _ pid h
      · cases h
  · cases h

theorem forkCall_not_exited (os : OS) (s s1 : Shell) (cmdArr : Argv) (n i pid : Nat)
    (par : Bool) (code : Int) : forkCall os s cmdArr n i par pid ≠ Outcome.exited code s1 := by
  intro h
  unfold forkCall wait at h
  split_ifs at h

theorem processCmd_exited (os : OS) (s s1 : Shell) (cmdArr : Argv) (n pid off : Nat)
    (par : Bool) (code : Int)
    (h : processCmd os s cmdArr n par pid off = Outcome.exited code s1) :
    code = 0 ∧ off = 0 ∧ s1 = s.log [Action.cleanUp, Action.freeCmdArr n] := by
  unfold processCmd at h
  split at h
  · split_ifs at h with h1 h2 h3
    · cases h; exact ⟨rfl, h3, rfl⟩
    · unfold changeDir at h
      split at h
      · split at h <;> cases h
      · cases h
    · split at h <;> cases h
    · split at h
      · split_ifs at h
        exact absurd h (forkCall_not_exited _ _ _ _ _ _ _ _ _)
      · cases h
  · cases h

theorem dispatchLoop_count (os : OS) (cmdArr : Argv) (multi : List Nat) (k i : Nat)
    (s s1 : Shell) (h : dispatchLoop os cmdArr multi k i s = Outcome.running s1) :
    ∃ d, d ≤ k ∧ launched s1.trace = launched s.trace + d ∧ s1.children = s.children + d ∧
      reaped s1.trace = reaped s.trace := by
  induction k generalizing i s with
  | zero => simp [dispatchLoop] at h; subst h; exact ⟨0, le_refl _, rfl, rfl, rfl⟩
  | succ k ih =>
    unfold dispatchLoop at h
    split at h
    · split_ifs at h
      · split at h
        · split at h
          · rename_i s2 hp
            obtain ⟨d1, hd1, a1, b1, c1⟩ := processCmd_parallel_count os s s2 _ _ _ _ hp
            obtain ⟨d2, hd2, a2, b2, c2⟩ := ih _ _ h
            exact ⟨d1 + d2, by omega, by omega, by omega, by omega⟩
          · rename_i o ho
            rw [h] at ho
            exact absurd rfl (ho s1)
        · cases h
      · obtain ⟨d2, hd2, a2, b2, c2⟩ := ih _ _ h
        exact ⟨d2, by omega, a2, b2, c2⟩
    · cases h

theorem dispatchLoop_exited (os : OS) (cmdArr : Argv) (multi : List Nat) (k i : Nat)
    (s s1 : Shell) (code : Int)
    (h : dispatchLoop os cmdArr multi k i s = Outcome.exited code s1) :
    code = 0 ∧ waitCalls s1.trace = waitCalls s.trace := by
  induction k generalizing i s with
  | zero => simp [dispatchLoop] at h
  | succ k ih =>
    unfold dispatchLoop at h
    split at h
    · split_ifs at h
      · split at h
        · split at h
          · rename_i s2 hp
            obtain ⟨hc, hw⟩ := ih _ _ h
            exact ⟨hc, by rw [hw, processCmd_parallel_waitCalls os s s2 _ _ _ _ hp]⟩
          · rename_i o ho
            obtain ⟨hc, -, hs⟩ := processCmd_exited os s s1 _ _ _ _ _ code h
            exact ⟨hc, by rw [hs]; simp [Shell.log, waitCalls_append]; rfl⟩
        · cases h
      · exact ih _ _ h
    · cases h

theorem waitLoop_count (n : Nat) (s : Shell) :
    reaped (waitLoop n s).trace = reaped s.trace + min n s.children ∧
      (waitLoop n s).children = s.children - min n s.children ∧
      launched (waitLoop n s).trace = launched s.trace := by
  induction n generalizing s with
  | zero => simp [waitLoop]
  | succ n ih =>
    simp only [waitLoop]
    obtain ⟨h1, h2, h3⟩ := ih (wait s)
    rw [h1, h2, h3]
    unfold wait
    by_cases hc : s.children = 0
    · rw [if_pos hc]
      simp only [Shell.log, reaped_append, launched_append, hc]
      simp [reaped, launched]
    · rw [if_neg hc]
      simp only [reaped_append, launched_append]
      have e1 : reaped [Action.wait true] = 1 := rfl
      have e2 : launched [Action.wait true] = 0 := rfl
      rw [e1, e2]
      refine ⟨?_, ?_, ?_⟩ <;> omega

/-! ## Join barrier: claim -/

theorem executeParallel_running_count (os : OS) (s s1 : Shell) (cmdArr : Argv)
    (multi : List Nat) (numPar : Nat) (hc : s.children = 0)
    (h : executeParallel os s cmdArr multi numPar = Outcome.running s1) :
    ∃ d, d ≤ numPar ∧ launched s1.trace = launched s.trace + d ∧
      reaped s1.trace = reaped s.trace + d ∧ s1.children = 0 := by
  unfold executeParallel at h
  split at h
  · rename_i s2 hd
    cases h
    obtain ⟨d, hd1, a, b, c⟩ := dispatchLoop_count os cmdArr multi numPar 0 _ s2 hd
    obtain ⟨w1, w2, w3⟩ := waitLoop_count numPar s2
    have hl0 : launched (s.log [Action.allocPids numPar]).trace = launched s.trace := by
      simp [Shell.log, launched_append]; rfl
    have hr0 : reaped (s.log [Action.allocPids numPar]).trace = reaped s.trace := by
      simp [Shell.log, reaped_append]; rfl
    have hc0 : (s.log [Action.allocPids numPar]).children = 0 := hc
    have hch : s2.children = d := by omega
    refine ⟨d, hd1, ?_, ?_, ?_⟩
    · simp only [Shell.log, launched_append, w3]
      have : launched [Action.freePids] = 0 := rfl
      omega
    · simp only [Shell.log, reaped_append, w1]
      have : reaped [Action.freePids] = 0 := rfl
      rw [this, hch, Nat.min_eq_right hd1]
      omega
    · show (waitLoop numPar s2).children = 0
      rw [w2, hch, Nat.min_eq_right hd1]; omega
  · rename_i o ho
    rw [h] at ho
    exact absurd rfl (ho s1)

theorem executeParallel_exited_waitCalls (os : OS) (s s1 : Shell) (cmdArr : Argv)
    (multi : List Nat) (numPar : Nat) (code : Int)
    (h : executeParallel os s cmdArr multi numPar = Outcome.exited code s1) :
    code = 0 ∧ waitCalls s1.trace = waitCalls s.trace := by
  unfold executeParallel at h
  split at h
  · cases h
  · rename_i o ho
    obtain ⟨h1, h2⟩ := dispatchLoop_exited os cmdArr multi numPar 0 _ s1 code h
    refine ⟨h1, ?_⟩
    rw [h2]
    simp [Shell.log, waitCalls_append]; rfl

/-- C6: the join loop of `executeParallel` does not call `wait` once per child
launched: it calls `wait(NULL)` once per group, `numPar` times for every batch
from which `executeParallel` returns, whatever the groups did (the local `goal`
that counts the dispatched groups is never read).  On the line `ls &` (with
`/bin/ls` executable and `fork` succeeding) `numPar` is 2, the groups are `ls`
and the empty one, one child is launched and `wait(NULL)` is called twice; on
`cd & path /bin` no child is launched and `wait(NULL)` is called twice.  What
does hold: of these `numPar` calls exactly as many find a child to wait for as
children were launched, when none was outstanding before. -/
theorem executeParallel_join :
    runLine osLs shellInit "ls &".toList =
        Outcome.running
          { paths := ["/bin".toList], cwd := "/home".toList, forks := 1, children := 0,
            trace := [Action.allocPids 2, Action.spawn [some "ls".toList, none, none] 1 0,
              Action.storePid 0, Action.wait true, Action.wait false, Action.freePids] } ∧
      launched [Action.allocPids 2, Action.spawn [some "ls".toList, none, none] 1 0,
          Action.storePid 0, Action.wait true, Action.wait false, Action.freePids] = 1 ∧
      waitCalls [Action.allocPids 2, Action.spawn [some "ls".toList, none, none] 1 0,
          Action.storePid 0, Action.wait true, Action.wait false, Action.freePids] = 2 ∧
      runLine osLs shellInit "cd & path /bin".toList =
        Outcome.running
          { paths := ["/bin".toList], cwd := "/home".toList, forks := 0, children := 0,
            trace := [Action.allocPids 2, Action.writeErr, Action.wait false,
              Action.wait false, Action.freePids] } ∧
      launched [Action.allocPids 2, Action.writeErr, Action.wait false, Action.wait false,
          Action.freePids] = 0 ∧
      waitCalls [Action.allocPids 2, Action.writeErr, Action.wait false, Action.wait false,
          Action.freePids] = 2 ∧
      (∀ (os : OS) (s s1 : Shell) (cmdArr : Argv) (multi : List Nat) (numPar : Nat),
        executeParallel os s cmdArr multi numPar = Outcome.running s1 →
        waitCalls s1.trace = waitCalls s.trace + numPar) ∧
      (∀ (os : OS) (s s1 : Shell) (cmdArr : Argv) (multi : List Nat) (numPar : Nat),
        s.children = 0 → executeParallel os s cmdArr multi numPar = Outcome.running s1 →
        ∃ d, d ≤ numPar ∧ launched s1.trace = launched s.trace + d ∧
          reaped s1.trace = reaped s.trace + d ∧ s1.children = 0) := by
  refine ⟨by decide, by decide, by decide, by decide, by decide, by decide, ?_, ?_⟩
  · intro os s s1 cmdArr multi numPar h
    exact executeParallel_waitCalls os s s1 cmdArr multi numPar h
  · intro os s s1 cmdArr multi numPar hc h
    exact executeParallel_running_count os s s1 cmdArr multi numPar hc h

theorem processCmd_serial_children (os : OS) (s s1 : Shell) (cmdArr : Argv) (n pid off : Nat)
    (h : processCmd os s cmdArr n false pid off = Outcome.running s1) :
    s1.children = s.children := by
  unfold processCmd at h
  split at h
  · split_ifs at h
    · cases h; rfl
    · unfold changeDir at h
      split at h
      · split at h <;> (cases h; rfl)
      · cases h
    · cases h; rfl
    · split at h
      · cases h; rfl
      · cases h
    · split at h
      · split_ifs at h
        · cases h; rfl
        · cases h; rfl
        · unfold forkCall at h
          by_cases h1 : os.fork s.forks = false
          · rw [if_pos h1] at h; cases h; rfl
          · rw [if_neg h1] at h
            simp only [if_true] at h
            have h2 := Outcome.running.inj h
            subst h2
            simp [wait]
      · cases h
  · cases h

/-- Between two lines no child is outstanding: a serial command is waited for
at once, and a batch that returns has waited for all it launched. -/
theorem runLine_children (os : OS) (s s1 : Shell) (line : CStr) (hc : s.children = 0)
    (h : runLine os s line = Outcome.running s1) : s1.children = 0 := by
  unfold runLine at h
  split at h
  · split at h
    · split_ifs at h
      · rw [processCmd_serial_children os s s1 _ _ _ _ h, hc]
      · split at h
        · obtain ⟨d, -, -, -, h4⟩ := executeParallel_running_count os s s1 _ _ _ hc h
          exact h4
        · cases h
    · cases h
  · cases h

/-! ## Dispatcher: claims -/

/-- C7: when the first token is none of `exit`, `cd`, `path`, `processCmd` follows
the result of `searchPaths` on it: on `-2` it returns with the shell state as it
was (nothing launched, nothing written); on `-1` it writes the error message
once and changes nothing else; on an index `i` it is the call of `forkCall`
with path index `i`.  When `searchPaths` has no defined result, `processCmd`
has none. -/
theorem processCmd_external (os : OS) (s : Shell) (cmdArr : Argv) (cmdArrSize : Nat)
    (parallel : Bool) (pidIndex offset : Nat) (cmd : CStr) (h0 : cmdArr[0]? = some (some cmd))
    (h1 : cmd ≠ "exit".toList) (h2 : cmd ≠ "cd".toList) (h3 : cmd ≠ "path".toList) :
    (searchPaths os.access s.paths cmd = some (-2) →
        processCmd os s cmdArr cmdArrSize parallel pidIndex offset = Outcome.running s) ∧
      (searchPaths os.access s.paths cmd = some (-1) →
        processCmd os s cmdArr cmdArrSize parallel pidIndex offset =
          Outcome.running { s with trace := s.trace ++ [Action.writeErr] }) ∧
      (∀ i : Nat, searchPaths os.access s.paths cmd = some (i : Int) →
        processCmd os s cmdArr cmdArrSize parallel pidIndex offset =
          forkCall os s cmdArr cmdArrSize i parallel pidIndex) ∧
      (searchPaths os.access s.paths cmd = none →
        processCmd os s cmdArr cmdArrSize parallel pidIndex offset = Outcome.fault) := by
  unfold processCmd
  rw [h0]
  simp only [if_neg h1, if_neg h2, if_neg h3]
  refine ⟨?_, ?_, ?_, ?_⟩
  · intro h; rw [h]; simp
  · intro h; rw [h]; simp [Shell.log]
  · intro i h
    rw [h]
    have e1 : ¬ ((i : Int) = -1) := by omega
    have e2 : ¬ ((i : Int) = -2) := by omega
    simp [e1, e2]
  · intro h; rw [h]

theorem processCmd_external_witness :
    processCmd osLs shellInit [some "ls".toList, some "-l".toList, none] 2 false 0 0 =
      forkCall osLs shellInit [some "ls".toList, some "-l".toList, none] 2 0 false 0 :=
  (processCmd_external osLs shellInit [some "ls".toList, some "-l".toList, none] 2 false 0 0
    "ls".toList (by decide) (by decide) (by decide) (by decide)).2.2.1 0 (by decide)

/-- C8: `exit` without further tokens does not end the process with `exit(0)`
for every slice.  Before `exit(0)` the branch calls `free(cmdArr)`; for a
slice that `executeParallel` passes as `&cmdArr[multi[i]]` with `multi[i] ≠ 0`
that pointer is not one `malloc` returned, and `free` has no defined result.
On the line `ls & exit` (with `/bin/ls` executable and `fork` succeeding) the
group `exit` is the slice at index 2 of the token array: a child is launched
for `ls`, then `processCmd` is called on `&cmdArr[2]` with size 1 and does not
reach `exit(0)`.  For a slice that starts its block, `processCmd` ends the
process with `exit(0)` exactly when `cmdArrSize = 1`, after `cleanUp()` and the
frees; with any other size, at any place, it returns, having written the error
message once, with the path list, the working directory and the children as
they were. -/
theorem processCmd_exit :
    tokenize "ls & exit".toList =
        some ([some "ls".toList, some ['&'], some "exit".toList, none], 3) ∧
      processParallel [some "ls".toList, some ['&'], some "exit".toList, none] 3 2 =
        some ([0, 1, 2, 1], [some "ls".toList, none, some "exit".toList, none]) ∧
      (∀ s : Shell, processCmd osLs s [some "exit".toList, none] 1 true 2 2 = Outcome.fault) ∧
      runLine osLs shellInit "ls & exit".toList = Outcome.fault ∧
      (∀ (os : OS) (s : Shell) (cmdArr : Argv) (cmdArrSize : Nat) (parallel : Bool)
          (pidIndex offset : Nat), cmdArr[0]? = some (some "exit".toList) →
        ((∃ code s1, processCmd os s cmdArr cmdArrSize parallel pidIndex offset =
            Outcome.exited code s1) ↔ cmdArrSize = 1 ∧ offset = 0) ∧
          (cmdArrSize = 1 → offset = 0 →
            processCmd os s cmdArr cmdArrSize parallel pidIndex offset =
              Outcome.exited 0
                { s with trace := s.trace ++ [Action.cleanUp, Action.freeCmdArr 1] }) ∧
          (cmdArrSize = 1 → offset ≠ 0 →
            processCmd os s cmdArr cmdArrSize parallel pidIndex offset = Outcome.fault) ∧
          (cmdArrSize ≠ 1 →
            processCmd os s cmdArr cmdArrSize parallel pidIndex offset =
              Outcome.running { s with trace := s.trace ++ [Action.writeErr] })) := by
  refine ⟨by decide, by decide, ?_, by decide, ?_⟩
  · intro s
    unfold processCmd
    simp
  intro os s cmdArr cmdArrSize parallel pidIndex offset h0
  have hyes : cmdArrSize = 1 → offset = 0 →
      processCmd os s cmdArr cmdArrSize parallel pidIndex offset =
        Outcome.exited 0 { s with trace := s.trace ++ [Action.cleanUp, Action.freeCmdArr 1] } := by
    intro h ho
    unfold processCmd
    rw [h0]
    simp [h, ho, Shell.log]
  have hbad : cmdArrSize = 1 → offset ≠ 0 →
      processCmd os s cmdArr cmdArrSize parallel pidIndex offset = Outcome.fault := by
    intro h ho
    unfold processCmd
    rw [h0]
    simp [h, ho]
  have hno : cmdArrSize ≠ 1 →
      processCmd os s cmdArr cmdArrSize parallel pidIndex offset =
        Outcome.running { s with trace := s.trace ++ [Action.writeErr] } := by
    intro h
    unfold processCmd
    rw [h0]
    simp [h, Shell.log]
  refine ⟨⟨?_, fun h => ⟨0, _, hyes h.1 h.2⟩⟩, hyes, hbad, hno⟩
  rintro ⟨code, s1, h⟩
  by_cases hne : cmdArrSize = 1
  · by_cases ho : offset = 0
    · exact ⟨hne, ho⟩
    · rw [hbad hne ho] at h
      cases h
  · rw [hno hne] at h
    cases h

/-- C9: when the first token is `cd` and the slice does not have exactly one
argument (`cmdArrSize ≠ 2`), `processCmd` returns with the error message written
once and nothing else done: no `chdir` call, and the working directory, the
path list and the children are as they were. -/
theorem processCmd_cd_arity (os : OS) (s : Shell) (cmdArr : Argv) (cmdArrSize : Nat)
    (parallel : Bool) (pidIndex offset : Nat) (h0 : cmdArr[0]? = some (some "cd".toList))
    (hn : cmdArrSize ≠ 2) :
    processCmd os s cmdArr cmdArrSize parallel pidIndex offset =
      Outcome.running { s with trace := s.trace ++ [Action.writeErr] } := by
  unfold processCmd
  rw [h0]
  simp [hn, Shell.log]

theorem processCmd_cd_arity_witness :
    processCmd osLs shellInit [some "cd".toList, some "a".toList, some "b".toList, none] 3
        false 0 0 =
      Outcome.running { shellInit with trace := shellInit.trace ++ [Action.writeErr] } :=
  processCmd_cd_arity osLs shellInit [some "cd".toList, some "a".toList, some "b".toList, none]
    3 false 0 0 (by decide) (by decide)

/-! ## Blank lines: claim -/

theorem createWhiteSpace_blank (line : CStr) (h : ∀ c ∈ line, isspace c = true) :
    createWhiteSpaceChars line = line := by
  induction line with
  | nil => rfl
  | cons c cs ih =>
    have hc : ¬ (c = '>' ∨ c = '&') := by
      intro hc
      have := h c (by simp)
      rw [isspace_special c hc] at this
      cases this
    unfold createWhiteSpaceChars
    rw [if_neg hc, ih (fun d hd => h d (by simp [hd]))]

theorem removeWhiteSpaceLoop_blank (line : CStr) (h : ∀ c ∈ line, isspace c = true) :
    removeWhiteSpaceLoop line false false [] = [] := by
  induction line with
  | nil => rfl
  | cons c cs ih =>
    unfold removeWhiteSpaceLoop
    simp [h c (by simp)]
    exact ih (fun d hd => h d (by simp [hd]))

theorem count_special_blank (line : CStr) (h : ∀ c ∈ line, isspace c = true) :
    line.count '>' + line.count '&' = 0 := by
  have h1 : line.count '>' = 0 := by
    rw [List.count_eq_zero]
    intro hm
    have := h _ hm
    revert this
    decide
  have h2 : line.count '&' = 0 := by
    rw [List.count_eq_zero]
    intro hm
    have := h _ hm
    revert this
    decide
  omega

/-- C10 fails as stated: the empty line gives a token count of 1, not 0. -/
theorem tokenize_empty_line_count :
    ¬ (∀ line : CStr, (∀ c ∈ line, isspace c = true) →
      (tokenize line).map (fun r => r.2) = some 0) := by
  intro h
  have := h [] (by simp)
  revert this
  decide

/-- C10, amended: for every line that is empty or all white space, tokenization
yields exactly one token, the empty string (`counter = 1`, `cmdArr = {"", NULL}`);
`checkParallel` counts one group, and `processCmd` on it returns with nothing
done, `searchPaths` answering `-2` for the empty command. -/
theorem tokenize_blank (os : OS) (s : Shell) (line : CStr)
    (h : ∀ c ∈ line, isspace c = true) :
    tokenize line = some ([some [], none], 1) ∧
      (tokenize line).bind (fun r => checkParallel r.1 r.2) = some 1 ∧
      runLine os s line = Outcome.running s := by
  have ht : tokenize line = some ([some [], none], 1) := by
    rw [tokenize_fits line (by rw [count_special_blank line h]; omega)]
    unfold tokens
    rw [createWhiteSpace_blank line h]
    unfold removeWhiteSpace
    rw [removeWhiteSpaceLoop_blank line h]
    rfl
  refine ⟨ht, ?_, ?_⟩
  · rw [ht]; rfl
  · unfold runLine
    rw [ht]
    have : checkParallel [some [], none] 1 = some 1 := rfl
    simp only [this, if_true]
    simp [processCmd, searchPaths]

theorem tokenize_blank_witness :
    (∀ c ∈ " \t ".toList, isspace c = true) ∧
      tokenize " \t ".toList = some ([some [], none], 1) ∧
      (tokenize " \t ".toList).bind (fun r => checkParallel r.1 r.2) = some 1 ∧
      runLine osLs shellInit " \t ".toList = Outcome.running shellInit :=
  ⟨by decide, tokenize_blank osLs shellInit " \t ".toList (by decide)⟩

/-! ## Buffer of `createWhiteSpace`: claim -/

/-- C20: the string `createWhiteSpace` writes has length
`strlen(str) + 2 * (number of '>' and '&')`; with its terminating NUL it fits
the `strlen(str) + 20` bytes allocated exactly when the line has at most nine
such characters.  On the line of eleven `>` it writes 33 characters into the
31 bytes allocated.  So `createWhiteSpace` returns that string for the lines
with at most nine such characters and has no defined result for the others. -/
theorem createWhiteSpace_overflow :
    (∀ str : CStr,
        (createWhiteSpaceChars str).length = str.length + 2 * (str.count '>' + str.count '&')) ∧
      (∀ str : CStr, ((createWhiteSpaceChars str).length + 1 ≤ createWhiteSpaceAlloc str ↔
        str.count '>' + str.count '&' ≤ 9)) ∧
      (createWhiteSpaceChars ">>>>>>>>>>>".toList).length = 33 ∧
      createWhiteSpaceAlloc ">>>>>>>>>>>".toList = 31 ∧
      (∀ str : CStr, createWhiteSpace str =
        if str.count '>' + str.count '&' ≤ 9 then some (createWhiteSpaceChars str) else none) ∧
      createWhiteSpace ">>>>>>>>>>>".toList = none := by
  refine ⟨createWhiteSpace_length, ?_, by decide, by decide, createWhiteSpace_eq, by decide⟩
  intro str
  rw [createWhiteSpace_length]
  unfold createWhiteSpaceAlloc
  omega

/-! ## Parallel grouper: lemmas -/

theorem set_zeros (done : List Nat) (n v : Nat) (hn : 0 < n) :
    storeMulti (done ++ List.replicate n 0) done.length v =
      some (done ++ v :: List.replicate (n - 1) 0) := by
  obtain ⟨m, rfl⟩ : ∃ m, n = m + 1 := ⟨n - 1, by omega⟩
  unfold storeMulti
  rw [if_pos (by simp)]
  simp [List.replicate_succ]

theorem checkParallelLoop_count (suf : List CStr) (pre rest : Argv) (c : Nat) :
    checkParallelLoop suf.length pre.length (pre ++ (suf.map some ++ rest)) c =
      some (c + suf.count ['&']) := by
  induction suf generalizing pre c with
  | nil => simp [checkParallelLoop]
  | cons t ts ih =>
    simp only [List.length_cons, List.map_cons, List.cons_append, checkParallelLoop,
      getElem?_mid]
    have hstep : ∀ c1, checkParallelLoop ts.length (pre.length + 1)
        (pre ++ some t :: (ts.map some ++ rest)) c1 = some (c1 + ts.count ['&']) := by
      intro c1
      have := ih (pre ++ [some t]) c1
      simpa using this
    by_cases ht : t = ['&']
    · subst ht
      simp only [if_true, hstep, List.count_cons_self]
      congr 1; omega
    · have hb : (t == ['&']) = false := by simpa using ht
      simp only [ht, if_false, hstep, List.count_cons, hb]
      simp

theorem checkParallel_count (toks : List CStr) (rest : Argv) :
    checkParallel (toks.map some ++ rest) toks.length = some (toks.count ['&'] + 1) := by
  unfold checkParallel
  have := checkParallelLoop_count toks [] rest 0
  simp only [List.length_nil, List.nil_append] at this
  rw [this]; simp

theorem processParallelLoop_writes (suf : List CStr) (pre rest : Argv) (done : List Nat)
    (n : Nat) (next : Bool) (c : Nat)
    (hcap : (parallelWrites pre.length next c suf).1.length ≤ n) :
    processParallelLoop suf.length pre.length (pre ++ (suf.map some ++ rest))
        (done ++ List.replicate n 0) done.length next c =
      some (done ++ ((parallelWrites pre.length next c suf).1 ++
          List.replicate (n - (parallelWrites pre.length next c suf).1.length) 0),
        done.length + (parallelWrites pre.length next c suf).1.length,
        (parallelWrites pre.length next c suf).2,
        pre ++ (suf.map ampNull ++ rest)) := by
  induction suf generalizing pre done n next c with
  | nil => simp [processParallelLoop, parallelWrites]
  | cons t ts ih =>
    simp only [List.length_cons, List.map_cons, List.cons_append, processParallelLoop,
      getElem?_mid]
    by_cases ht : t = ['&']
    · subst ht
      simp only [parallelWrites, if_true, List.length_cons] at hcap ⊢
      rw [set_zeros done n c (by omega)]
      simp only [List.set_append_right _ _ (le_refl _), Nat.sub_self, List.set_cons_zero]
      have := ih (pre ++ [none]) (done ++ [c]) (n - 1) true 0
        (by simp only [List.length_append, List.length_singleton]; omega)
      simp only [List.length_append, List.length_singleton, List.append_assoc,
        List.singleton_append] at this
      rw [this]
      simp only [ampNull, if_true, List.cons_append, Nat.sub_sub, Nat.add_assoc]
      rw [Nat.add_comm 1]
    · simp only [ht, if_false]
      by_cases hn : next = true ∨ pre.length = 0
      · simp only [parallelWrites, ht, if_false, hn, if_true, List.length_cons] at hcap ⊢
        rw [set_zeros done n pre.length (by omega)]
        have := ih (pre ++ [some t]) (done ++ [pre.length]) (n - 1) false (c + 1)
          (by simp only [List.length_append, List.length_singleton]; omega)
        simp only [List.length_append, List.length_singleton, List.append_assoc,
          List.singleton_append] at this
        dsimp only
        rw [this]
        simp only [ampNull, ht, if_false, List.cons_append, Nat.sub_sub, Nat.add_assoc]
        rw [Nat.add_comm 1]
      · simp only [parallelWrites, ht, if_false, hn] at hcap ⊢
        have := ih (pre ++ [some t]) done n next (c + 1)
          (by simpa only [List.length_append, List.length_singleton] using hcap)
        simp only [List.length_append, List.length_singleton, List.append_assoc,
          List.singleton_append] at this
        rw [this]
        simp only [ampNull, ht, if_false]

/-- The result of `processParallel` on a slice of non-null tokens, when `multi`
has room for what is stored. -/
theorem processParallel_writes (toks : List CStr) (rest : Argv) (numPar : Nat)
    (hcap : (parallelWrites 0 false 0 toks).1.length < numPar * 2) :
    processParallel (toks.map some ++ rest) toks.length numPar =
      some ((parallelWrites 0 false 0 toks).1 ++ (parallelWrites 0 false 0 toks).2 ::
          List.replicate (numPar * 2 - (parallelWrites 0 false 0 toks).1.length - 1) 0,
        toks.map ampNull ++ rest) := by
  unfold processParallel
  have := processParallelLoop_writes toks [] rest [] (numPar * 2) false 0
    (by simpa using Nat.le_of_lt hcap)
  simp only [List.length_nil, List.nil_append, Nat.zero_add] at this
  rw [this]
  simp only
  have h2 := set_zeros (parallelWrites 0 false 0 toks).1
    (numPar * 2 - (parallelWrites 0 false 0 toks).1.length) (parallelWrites 0 false 0 toks).2
    (by omega)
  rw [h2]
  simp

theorem parallelWrites_plain (ts : List CStr) (i c : Nat) (hi : i ≠ 0) (h : ['&'] ∉ ts) :
    parallelWrites i false c ts = ([], c + ts.length) := by
  induction ts generalizing i c with
  | nil => rfl
  | cons t ts ih =>
    have ht : t ≠ ['&'] := fun e => h (by simp [e])
    have hts : ['&'] ∉ ts := fun e => h (by simp [e])
    simp only [parallelWrites, ht, if_false, hi, Bool.false_eq_true, or_self]
    rw [ih (i + 1) (c + 1) (by omega) hts]
    simp only [List.length_cons]
    congr 1; omega

theorem map_ampNull_plain (ts : List CStr) (h : ['&'] ∉ ts) : ts.map ampNull = ts.map some := by
  induction ts with
  | nil => rfl
  | cons t ts ih =>
    have ht : t ≠ ['&'] := fun e => h (by simp [e])
    have hts : ['&'] ∉ ts := fun e => h (by simp [e])
    simp [ampNull, ht, ih hts]

/-- C12: on a sequence of `n` non-null tokens with no `&` token, `checkParallel`
returns 1, and `processParallel` with `numPar = 1` returns `multi = {0, n}`,
the single pair (start 0, length n), and leaves the tokens as they are. -/
theorem processParallel_single_group (toks : List CStr) (rest : Argv) (h : ['&'] ∉ toks) :
    checkParallel (toks.map some ++ rest) toks.length = some 1 ∧
      processParallel (toks.map some ++ rest) toks.length 1 =
        some ([0, toks.length], toks.map some ++ rest) ∧
      pairsOf [0, toks.length] = [(0, toks.length)] := by
  refine ⟨?_, ?_, rfl⟩
  · rw [checkParallel_count, List.count_eq_zero.mpr h]
  · cases toks with
    | nil => rfl
    | cons t ts =>
      have ht : t ≠ ['&'] := fun e => h (by simp [e])
      have hts : ['&'] ∉ ts := fun e => h (by simp [e])
      have hw : parallelWrites 0 false 0 (t :: ts) = ([0], (t :: ts).length) := by
        simp only [parallelWrites, ht, if_false, or_true, if_true]
        rw [parallelWrites_plain ts 1 1 (by omega) hts]
        simp only [List.length_cons]
        congr 1; omega
      rw [processParallel_writes (t :: ts) rest 1 (by rw [hw]; simp), hw,
        map_ampNull_plain (t :: ts) h]
      rfl

theorem processParallel_single_group_witness :
    ['&'] ∉ ["ls".toList, "-l".toList] ∧
      checkParallel (["ls".toList, "-l".toList].map some ++ [none])
        ["ls".toList, "-l".toList].length = some 1 ∧
      processParallel (["ls".toList, "-l".toList].map some ++ [none])
        ["ls".toList, "-l".toList].length 1 =
        some ([0, ["ls".toList, "-l".toList].length],
          ["ls".toList, "-l".toList].map some ++ [none]) ∧
      pairsOf [0, ["ls".toList, "-l".toList].length] =
        [(0, ["ls".toList, "-l".toList].length)] :=
  ⟨by decide,
    processParallel_single_group ["ls".toList, "-l".toList] [none] (by decide)⟩

theorem splitAmp_ne_nil (ts : List CStr) : splitAmp ts ≠ [] := by
  cases ts with
  | nil => simp [splitAmp]
  | cons t ts =>
    unfold splitAmp
    split_ifs
    · simp
    · split <;> simp

theorem splitAmp_cons_plain (t : CStr) (ts : List CStr) (ht : t ≠ ['&']) :
    ∃ seg more, splitAmp ts = seg :: more ∧ splitAmp (t :: ts) = (t :: seg) :: more := by
  cases h : splitAmp ts with
  | nil => exact absurd h (splitAmp_ne_nil ts)
  | cons seg more =>
    refine ⟨seg, more, rfl, ?_⟩
    simp [splitAmp, ht, h]

theorem length_splitAmp (ts : List CStr) : (splitAmp ts).length = ts.count ['&'] + 1 := by
  induction ts with
  | nil => rfl
  | cons t ts ih =>
    by_cases ht : t = ['&']
    · subst ht
      simp [splitAmp, ih]
    · obtain ⟨seg, more, h1, h2⟩ := splitAmp_cons_plain t ts ht
      have hb : (t == ['&']) = false := by simpa using ht
      rw [h2, List.count_cons, hb]
      rw [h1] at ih
      simp only [List.length_cons] at ih ⊢
      simp only [Bool.false_eq_true, if_false, Nat.add_zero]
      exact ih

theorem padOf_cons (seg : List CStr) (more : List (List CStr)) (hseg : seg ≠ []) :
    padOf (seg :: more) = padOf more := by
  cases more with
  | nil =>
    cases seg with
    | nil => exact absurd rfl hseg
    | cons a as => rfl
  | cons m ms => simp [padOf, List.getLast?_cons_cons]

theorem noAdjacentAmp_tail (t : CStr) (ts : List CStr) (h : noAdjacentAmp (t :: ts) = true) :
    noAdjacentAmp ts = true := by
  cases ts with
  | nil => rfl
  | cons u us =>
    simp only [noAdjacentAmp, Bool.and_eq_true] at h
    exact h.2

theorem noAdjacentAmp_head (ts : List CStr) (h : noAdjacentAmp (['&'] :: ts) = true) :
    ts.head? ≠ some ['&'] := by
  cases ts with
  | nil => simp
  | cons u us =>
    simp only [noAdjacentAmp, Bool.and_eq_true] at h
    intro hu
    have : u = ['&'] := by simpa using hu
    subst this
    simp at h

theorem parallelWrites_groups (suf : List CStr) (i c : Nat) (hadj : noAdjacentAmp suf = true) :
    (suf.head? ≠ some ['&'] → ∀ next : Bool, (next = true ∨ i = 0) →
        (parallelWrites i next 0 suf).1 ++ (parallelWrites i next 0 suf).2 ::
            List.replicate (padOf (splitAmp suf)) 0 =
          flattenPairs (groupPairs i (splitAmp suf))) ∧
      (i ≠ 0 → ∀ seg0 more, splitAmp suf = seg0 :: more →
        (parallelWrites i false c suf).1 ++ (parallelWrites i false c suf).2 ::
            List.replicate (padOf more) 0 =
          (c + seg0.length) :: flattenPairs (groupPairs (i + seg0.length + 1) more)) := by
  induction suf generalizing i c with
  | nil =>
    refine ⟨fun _ _ _ => rfl, fun _ seg0 more h => ?_⟩
    simp only [splitAmp, List.cons.injEq] at h
    obtain ⟨rfl, rfl⟩ := h
    rfl
  | cons t ts ih =>
    have hts := noAdjacentAmp_tail t ts hadj
    by_cases ht : t = ['&']
    · subst ht
      refine ⟨fun h => absurd rfl h, fun hi seg0 more h => ?_⟩
      simp only [splitAmp, if_true, List.cons.injEq] at h
      obtain ⟨rfl, rfl⟩ := h
      have := (ih (i + 1) 0 hts).1 (noAdjacentAmp_head ts hadj) true (Or.inl rfl)
      simp only [parallelWrites, if_true, List.cons_append, List.length_nil, Nat.add_zero]
      rw [this]
    · obtain ⟨seg, more1, h1, h2⟩ := splitAmp_cons_plain t ts ht
      constructor
      · intro _ next hn
        have := (ih (i + 1) 1 hts).2 (by omega) seg more1 h1
        simp only [parallelWrites, ht, if_false, hn, if_true, List.cons_append]
        rw [h2, padOf_cons _ _ (by simp), this]
        simp only [groupPairs, flattenPairs, List.length_cons]
        simp only [reduceCtorEq, if_false]
        have e1 : 1 + seg.length = seg.length + 1 := by omega
        have e2 : i + 1 + seg.length + 1 = i + (seg.length + 1) + 1 := by omega
        rw [e1, e2]
      · intro hi seg0 more h
        rw [h2] at h
        simp only [List.cons.injEq] at h
        obtain ⟨rfl, rfl⟩ := h
        have := (ih (i + 1) (c + 1) hts).2 (by omega) seg more1 h1
        simp only [parallelWrites, ht, if_false, hi, Bool.false_eq_true, or_self]
        rw [this]
        simp only [List.length_cons]
        have e1 : c + 1 + seg.length = c + (seg.length + 1) := by omega
        have e2 : i + 1 + seg.length + 1 = i + (seg.length + 1) + 1 := by omega
        rw [e1, e2]

theorem pairsOf_flattenPairs (ps : List (Nat × Nat)) : pairsOf (flattenPairs ps) = ps := by
  induction ps with
  | nil => rfl
  | cons p ps ih =>
    obtain ⟨a, b⟩ := p
    simp [flattenPairs, pairsOf, ih]

theorem length_flattenPairs (ps : List (Nat × Nat)) :
    (flattenPairs ps).length = 2 * ps.length := by
  induction ps with
  | nil => rfl
  | cons p ps ih =>
    obtain ⟨a, b⟩ := p
    simp [flattenPairs, ih]; omega

theorem length_groupPairs (i : Nat) (segs : List (List CStr)) :
    (groupPairs i segs).length = segs.length := by
  induction segs generalizing i with
  | nil => rfl
  | cons s more ih => simp [groupPairs, ih]

/-- On a sequence of non-null tokens that does not start with `&` and has no two
adjacent `&`, `processParallel` with `numPar` = number of `&` + 1 stores exactly
the pairs of the `&`-separated segments. -/
theorem processParallel_groupPairs (toks : List CStr) (rest : Argv)
    (h1 : toks.head? ≠ some ['&']) (h2 : noAdjacentAmp toks = true) :
    processParallel (toks.map some ++ rest) toks.length (toks.count ['&'] + 1) =
      some (flattenPairs (groupPairs 0 (splitAmp toks)), toks.map ampNull ++ rest) := by
  have hw := (parallelWrites_groups toks 0 0 h2).1 h1 false (Or.inr rfl)
  have hlen := congrArg List.length hw
  rw [length_flattenPairs, length_groupPairs, length_splitAmp] at hlen
  simp only [List.length_append, List.length_cons, List.length_replicate] at hlen
  rw [processParallel_writes toks rest _ (by omega)]
  have hpad : (toks.count ['&'] + 1) * 2 - (parallelWrites 0 false 0 toks).1.length - 1 =
      padOf (splitAmp toks) := by omega
  rw [hpad, hw]

theorem joinAmp_cons (seg : List CStr) (more : List (List CStr)) (h : more ≠ []) :
    joinAmp (seg :: more) = seg ++ ['&'] :: joinAmp more := by
  cases more with
  | nil => exact absurd rfl h
  | cons m ms => rfl

theorem joinAmp_splitAmp (ts : List CStr) : joinAmp (splitAmp ts) = ts := by
  induction ts with
  | nil => rfl
  | cons t ts ih =>
    by_cases ht : t = ['&']
    · subst ht
      simp only [splitAmp, if_true]
      rw [joinAmp_cons _ _ (splitAmp_ne_nil ts), ih]; rfl
    · obtain ⟨seg, more, h1, h2⟩ := splitAmp_cons_plain t ts ht
      rw [h2]
      rw [h1] at ih
      cases more with
      | nil => simp only [joinAmp] at ih ⊢; rw [ih]
      | cons m ms =>
        rw [joinAmp_cons _ _ (by simp)] at ih ⊢
        rw [List.cons_append, ih]

theorem splitAmp_no_amp (ts : List CStr) : ∀ seg ∈ splitAmp ts, ['&'] ∉ seg := by
  induction ts with
  | nil => simp [splitAmp]
  | cons t ts ih =>
    by_cases ht : t = ['&']
    · subst ht
      simp only [splitAmp, if_true, List.mem_cons]
      rintro seg (rfl | h)
      · simp
      · exact ih seg h
    · obtain ⟨seg0, more, h1, h2⟩ := splitAmp_cons_plain t ts ht
      rw [h2]
      rw [h1] at ih
      intro seg hseg
      simp only [List.mem_cons] at hseg
      rcases hseg with rfl | h
      · intro hm
        simp only [List.mem_cons] at hm
        rcases hm with e | e
        · exact ht e.symm
        · exact ih seg0 (by simp) e
      · exact ih seg (by simp [h])

theorem groupPairs_slice {β : Type} (f : CStr → β) (segs : List (List CStr)) (pre rest : List β)
    (k start len : Nat) (seg : List CStr)
    (hp : (groupPairs pre.length segs)[k]? = some (start, len)) (hs : segs[k]? = some seg)
    (hlen : len ≠ 0) :
    ((pre ++ ((joinAmp segs).map f ++ rest)).drop start).take len = seg.map f := by
  induction segs generalizing pre k with
  | nil => simp at hs
  | cons s more ih =>
    cases k with
    | zero =>
      simp only [groupPairs, List.getElem?_cons_zero, Option.some.injEq, Prod.mk.injEq] at hp hs
      obtain ⟨hst, hl⟩ := hp
      subst hs
      have hne : s ≠ [] := by
        intro e; subst e; simp at hl; omega
      rw [if_neg hne] at hst
      subst hst
      subst hl
      have hj : ∃ tl, joinAmp (s :: more) = s ++ tl := by
        cases more with
        | nil => exact ⟨[], by simp [joinAmp]⟩
        | cons m ms => exact ⟨_, joinAmp_cons _ _ (by simp)⟩
      obtain ⟨tl, htl⟩ := hj
      rw [htl, List.drop_left, List.map_append, List.append_assoc]
      rw [← List.length_map s f, List.take_left]
    | succ k =>
      simp only [groupPairs, List.getElem?_cons_succ] at hp hs
      have hmore : more ≠ [] := by
        intro e; subst e; simp at hs
      rw [joinAmp_cons _ _ hmore]
      have := ih (pre ++ (s.map f ++ [f ['&']])) k
        (by simpa [Nat.add_assoc] using hp) hs
      simpa using this

theorem groupPairs_start (segs : List (List CStr)) (i k start len : Nat)
    (hp : (groupPairs i segs)[k]? = some (start, len)) (hlen : len ≠ 0) :
    start = i + ((segs.take k).map (fun s => s.length + 1)).sum := by
  induction segs generalizing i k with
  | nil => simp [groupPairs] at hp
  | cons s more ih =>
    cases k with
    | zero =>
      simp only [groupPairs, List.getElem?_cons_zero, Option.some.injEq, Prod.mk.injEq] at hp
      obtain ⟨hst, hl⟩ := hp
      have hne : s ≠ [] := by
        intro e; subst e; simp at hl; omega
      rw [if_neg hne] at hst
      simp [hst]
    | succ k =>
      simp only [groupPairs, List.getElem?_cons_succ] at hp
      have := ih _ k hp
      simp only [List.take_succ_cons, List.map_cons, List.sum_cons]
      omega

theorem groupPairs_lengths (i : Nat) (segs : List (List CStr)) :
    (groupPairs i segs).map Prod.snd = segs.map List.length := by
  induction segs generalizing i with
  | nil => rfl
  | cons s more ih => simp [groupPairs, ih]

/-- C19: on a sequence of non-null tokens whose first token is not `&` and in
which no two `&` are adjacent, `processParallel` with `numPar` = number of `&`
plus 1 yields `numPar` pairs; the `k`-th pair has the length of the `k`-th
`&`-separated segment, and when that length is not 0 its start is the index of
the segment's first token (the lengths of the earlier segments plus one `&` for
each), so that the slice `executeParallel` dispatches is that segment: the
tokens of one command, none of them `&` or `NULL`. -/
theorem processParallel_segments (toks : List CStr) (rest : Argv)
    (h1 : toks.head? ≠ some ['&']) (h2 : noAdjacentAmp toks = true) :
    ∃ multi cmdArr1,
      processParallel (toks.map some ++ rest) toks.length (toks.count ['&'] + 1) =
        some (multi, cmdArr1) ∧
      (pairsOf multi).length = toks.count ['&'] + 1 ∧
      (pairsOf multi).map Prod.snd = (splitAmp toks).map List.length ∧
      ∀ k start len seg, (pairsOf multi)[k]? = some (start, len) →
        (splitAmp toks)[k]? = some seg → len ≠ 0 →
          start = (((splitAmp toks).take k).map (fun s => s.length + 1)).sum ∧
            (toks.drop start).take len = seg ∧
            (cmdArr1.drop start).take len = seg.map some ∧ ['&'] ∉ seg := by
  refine ⟨_, _, processParallel_groupPairs toks rest h1 h2, ?_, ?_, ?_⟩
  · rw [pairsOf_flattenPairs, length_groupPairs, length_splitAmp]
  · rw [pairsOf_flattenPairs, groupPairs_lengths]
  · intro k start len seg hp hs hlen
    rw [pairsOf_flattenPairs] at hp
    have hno := splitAmp_no_amp toks seg (List.getElem?_mem hs)
    refine ⟨?_, ?_, ?_, hno⟩
    · simpa using groupPairs_start _ 0 k start len hp hlen
    · have := groupPairs_slice id (splitAmp toks) [] [] k start len seg hp hs hlen
      simpa [joinAmp_splitAmp] using this
    · have := groupPairs_slice ampNull (splitAmp toks) [] rest k start len seg hp hs hlen
      rw [joinAmp_splitAmp, map_ampNull_plain seg hno] at this
      simpa using this

theorem processParallel_segments_witness :
    ["a".toList, "&".toList, "b".toList, "c".toList, "&".toList].head? ≠ some ['&'] ∧
      noAdjacentAmp ["a".toList, "&".toList, "b".toList, "c".toList, "&".toList] = true ∧
      ∃ multi cmdArr1,
        processParallel
            (["a".toList, "&".toList, "b".toList, "c".toList, "&".toList].map some ++ [none])
            ["a".toList, "&".toList, "b".toList, "c".toList, "&".toList].length
            (["a".toList, "&".toList, "b".toList, "c".toList, "&".toList].count ['&'] + 1) =
          some (multi, cmdArr1) ∧
        (pairsOf multi).length =
          ["a".toList, "&".toList, "b".toList, "c".toList, "&".toList].count ['&'] + 1 ∧
        (pairsOf multi).map Prod.snd =
          (splitAmp ["a".toList, "&".toList, "b".toList, "c".toList, "&".toList]).map
            List.length :=
  ⟨by decide, by decide,
    (processParallel_segments ["a".toList, "&".toList, "b".toList, "c".toList, "&".toList]
      [none] (by decide) (by decide)).imp fun _ h => h.imp fun _ h => ⟨h.1, h.2.1, h.2.2.1⟩⟩

/-! ## Tokenizer: well-spaced output -/

theorem isspace_space_ne (c : Char) (h : isspace c = false) : c ≠ ' ' := by
  intro e; subst e; simp [isspace] at h

theorem spacedT_removeLoop (cs : CStr) (p sn : Bool) :
    (p = false ∧ sn = true → SpacedT true (removeWhiteSpaceLoop cs p sn [])) ∧
      (¬ (p = false ∧ sn = true) →
        ((∃ c ∈ cs, isspace c = false) → SpacedT false (removeWhiteSpaceLoop cs p sn [])) ∧
          ((∀ c ∈ cs, isspace c = true) → removeWhiteSpaceLoop cs p sn [] = [])) := by
  induction cs generalizing p sn with
  | nil =>
    refine ⟨fun _ => rfl, fun _ => ⟨fun h => ?_, fun _ => rfl⟩⟩
    obtain ⟨c, hc, -⟩ := h
    simp at hc
  | cons c cs ih =>
    by_cases hc : isspace c = false
    · have hne := isspace_space_ne c hc
      have hB := (ih false true).1 ⟨rfl, rfl⟩
      have hout : ∀ b, SpacedT b (removeWhiteSpaceLoop (c :: cs) p sn []) := by
        intro b
        simp only [removeWhiteSpaceLoop, hc, if_true]
        rw [removeWhiteSpaceLoop_acc]
        simp only [List.nil_append, List.cons_append, SpacedT, hne, if_false]
        exact ⟨hc, hB⟩
      refine ⟨fun _ => hout true, fun _ => ⟨fun _ => hout false, fun hall => ?_⟩⟩
      have := hall c (by simp)
      rw [hc] at this; cases this
    · have hc1 : isspace c = true := by simpa using hc
      constructor
      · rintro ⟨rfl, rfl⟩
        simp only [removeWhiteSpaceLoop, hc1, Bool.true_eq_false, if_false, and_self, if_true]
        rw [removeWhiteSpaceLoop_acc]
        simp only [List.nil_append, List.cons_append, SpacedT, if_true, true_and]
        have hC := (ih true true).2 (by simp)
        by_cases hex : ∃ d ∈ cs, isspace d = false
        · exact Or.inr (hC.1 hex)
        · left
          apply hC.2
          intro d hd
          by_contra hd1
          exact hex ⟨d, hd, by simpa using hd1⟩
      · intro hst
        simp only [removeWhiteSpaceLoop, hc1, Bool.true_eq_false, if_false, hst]
        have hC := (ih p sn).2 hst
        constructor
        · rintro ⟨d, hd, hd1⟩
          apply hC.1
          simp only [List.mem_cons] at hd
          rcases hd with rfl | hd
          · rw [hc1] at hd1; cases hd1
          · exact ⟨d, hd, hd1⟩
        · intro hall
          exact hC.2 (fun d hd => hall d (by simp [hd]))

theorem spacedT_cons (b : Bool) (c : Char) (cs : CStr) :
    SpacedT b (c :: cs) ↔
      (if c = ' ' then b = true ∧ (cs = [] ∨ SpacedT false cs)
        else isspace c = false ∧ SpacedT true cs) := Iff.rfl

theorem spaced_cons (b : Bool) (c : Char) (cs : CStr) :
    Spaced b (c :: cs) ↔
      (if c = ' ' then b = true ∧ Spaced false cs else isspace c = false ∧ Spaced true cs) :=
  Iff.rfl

theorem trimLast_cons_cons (c d : Char) (ds : CStr) :
    trimLast (c :: d :: ds) = c :: trimLast (d :: ds) := by
  unfold trimLast
  rw [List.getLast?_cons_cons]
  cases hl : (d :: ds).getLast? with
  | none => simp at hl
  | some e =>
    by_cases he : isspace e = true
    · simp [he]
    · simp [he]

theorem removeWhiteSpace_eq (str : CStr) :
    removeWhiteSpace str = trimLast (removeWhiteSpaceLoop str false false []) := rfl

theorem spaced_trim (o : CStr) (b : Bool) (h : SpacedT b o) : Spaced b (trimLast o) := by
  induction o generalizing b with
  | nil => exact h
  | cons c cs ih =>
    cases cs with
    | nil =>
      rw [spacedT_cons] at h
      by_cases hc : c = ' '
      · subst hc
        rw [if_pos rfl] at h
        exact h.1
      · rw [if_neg hc] at h
        have : trimLast [c] = [c] := by simp [trimLast, h.1]
        rw [this, spaced_cons, if_neg hc]
        exact ⟨h.1, rfl⟩
    | cons d ds =>
      rw [trimLast_cons_cons, spaced_cons]
      rw [spacedT_cons] at h
      by_cases hc : c = ' '
      · subst hc
        rw [if_pos rfl] at h ⊢
        rcases h.2 with h0 | h0
        · cases h0
        · exact ⟨h.1, ih false h0⟩
      · rw [if_neg hc] at h ⊢
        exact ⟨h.1, ih true h.2⟩

theorem mem_createWhiteSpace (c : Char) (line : CStr) (h : c ∈ line) :
    c ∈ createWhiteSpaceChars line := by
  induction line with
  | nil => simp at h
  | cons d ds ih =>
    simp only [List.mem_cons] at h
    unfold createWhiteSpaceChars
    split_ifs
    · rcases h with rfl | h
      · simp
      · simp [ih h]
    · rcases h with rfl | h
      · simp
      · simp [ih h]

theorem spaced_removeWhiteSpace (str : CStr) (h : ∃ c ∈ str, isspace c = false) :
    Spaced false (removeWhiteSpace str) := by
  rw [removeWhiteSpace_eq]
  exact spaced_trim _ _ (((spacedT_removeLoop str false false).2 (by simp)).1 h)

theorem strsep_spaced (s : CStr) (b : Bool) (h : Spaced b s) :
    (∀ c ∈ (strsep s).1, isspace c = false) ∧ (b = false → (strsep s).1 ≠ []) ∧
      ∀ r, (strsep s).2 = some r → Spaced false r := by
  induction s generalizing b with
  | nil =>
    refine ⟨by simp [strsep], fun hb => ?_, by simp [strsep]⟩
    have : b = true := h
    rw [hb] at this; cases this
  | cons c cs ih =>
    rw [spaced_cons] at h
    unfold strsep
    by_cases hc : c = ' '
    · rw [if_pos hc] at h ⊢
      refine ⟨by simp, fun hb => ?_, fun r hr => ?_⟩
      · rw [hb] at h; cases h.1
      · simp at hr; subst hr; exact h.2
    · rw [if_neg hc] at h ⊢
      have := ih true h.2
      refine ⟨?_, fun _ => by simp, this.2.2⟩
      intro d hd
      simp only [List.mem_cons] at hd
      rcases hd with rfl | hd
      · exact h.1
      · exact this.1 d hd

theorem strsepLoop_spaced (fuel : Nat) (s : CStr) (h : Spaced false s) (t : CStr)
    (ht : t ∈ strsepLoop fuel (some s)) : t ≠ [] ∧ ∀ c ∈ t, isspace c = false := by
  induction fuel generalizing s with
  | zero => simp [strsepLoop] at ht
  | succ n ih =>
    simp only [strsepLoop, List.mem_cons] at ht
    have hS := strsep_spaced s false h
    rcases ht with rfl | ht
    · exact ⟨hS.2.1 rfl, hS.1⟩
    · cases hr : (strsep s).2 with
      | none => rw [hr] at ht; cases n <;> simp [strsepLoop] at ht
      | some r =>
        rw [hr] at ht
        exact ih r (hS.2.2 r hr) ht

theorem spaced_shape (s : CStr) (b : Bool) (h : Spaced b s) :
    (b = false → s.head? ≠ some ' ') ∧ s.getLast? ≠ some ' ' ∧
      (∀ c ∈ s, isspace c = true → c = ' ') ∧
      ∀ i : Nat, ¬ (s[i]? = some ' ' ∧ s[i + 1]? = some ' ') := by
  induction s generalizing b with
  | nil => simp
  | cons c cs ih =>
    rw [spaced_cons] at h
    by_cases hc : c = ' '
    · subst hc
      rw [if_pos rfl] at h
      obtain ⟨i1, i2, i3, i4⟩ := ih false h.2
      refine ⟨fun hb => ?_, ?_, ?_, ?_⟩
      · rw [hb] at h; cases h.1
      · cases cs with
        | nil => have : false = true := h.2; cases this
        | cons d ds => rw [List.getLast?_cons_cons]; exact i2
      · intro d hd hsp
        simp only [List.mem_cons] at hd
        rcases hd with rfl | hd
        · rfl
        · exact i3 d hd hsp
      · intro i
        cases i with
        | zero =>
          rintro ⟨-, h2⟩
          simp only [Nat.zero_add, List.getElem?_cons_succ] at h2
          apply i1 rfl
          cases cs with
          | nil => simp at h2
          | cons d ds => simpa using h2
        | succ i => simpa using i4 i
    · rw [if_neg hc] at h
      obtain ⟨i1, i2, i3, i4⟩ := ih true h.2
      refine ⟨fun _ => by simpa using hc, ?_, ?_, ?_⟩
      · cases cs with
        | nil => simpa using hc
        | cons d ds => rw [List.getLast?_cons_cons]; exact i2
      · intro d hd hsp
        simp only [List.mem_cons] at hd
        rcases hd with rfl | hd
        · rw [h.1] at hsp; cases hsp
        · exact i3 d hd hsp
      · intro i
        cases i with
        | zero =>
          rintro ⟨h1, -⟩
          simp at h1
          exact hc h1
        | succ i => simpa using i4 i

/-- C11: tokenization does not yield clean tokens for every line with a
non-white-space character: the line of twenty `>` has one, and on it the loop
of `createWhiteSpace` stores 60 characters into the 40 bytes it allocated, so
tokenization has no defined result.  For every such line with at most nine `>`
and `&` the property holds: `counter` tokens are stored, `counter` is not 0,
and every token is a non-empty string with no white-space character; the
string `removeWhiteSpace` returns does not start or end with a space, has no
two adjacent spaces and no white space other than the space character.  The
line `  ls\t -l ` gives the two tokens `ls`, `-l`. -/
theorem tokenize_tokens_clean :
    (∃ c ∈ ">>>>>>>>>>>>>>>>>>>>".toList, isspace c = false) ∧
      tokenize ">>>>>>>>>>>>>>>>>>>>".toList = none ∧
      (∀ line : CStr, (∃ c ∈ line, isspace c = false) →
        line.count '>' + line.count '&' ≤ 9 →
        ∃ (temp : CStr) (toks : List CStr), createWhiteSpace line = some temp ∧
          tokenize line = some (toks.map some ++ [none], toks.length) ∧
          toks.length ≠ 0 ∧
          (∀ t ∈ toks, t ≠ [] ∧ ∀ c ∈ t, isspace c = false) ∧
          (removeWhiteSpace temp).head? ≠ some ' ' ∧
          (removeWhiteSpace temp).getLast? ≠ some ' ' ∧
          (∀ c ∈ removeWhiteSpace temp, isspace c = true → c = ' ') ∧
          ∀ i : Nat, ¬ ((removeWhiteSpace temp)[i]? = some ' ' ∧
            (removeWhiteSpace temp)[i + 1]? = some ' ')) ∧
      tokenize "  ls\t -l ".toList = some ([some "ls".toList, some "-l".toList, none], 2) := by
  refine ⟨⟨'>', by decide, by decide⟩, by rw [tokenize_eq, if_neg (by decide)], ?_, by decide⟩
  intro line h hfit
  have hw : ∃ c ∈ createWhiteSpaceChars line, isspace c = false := by
    obtain ⟨c, hc, hsp⟩ := h
    exact ⟨c, mem_createWhiteSpace c line hc, hsp⟩
  have hsp := spaced_removeWhiteSpace _ hw
  obtain ⟨s1, s2, s3, s4⟩ := spaced_shape _ false hsp
  refine ⟨createWhiteSpaceChars line, tokens line, ?_, tokenize_fits line hfit, ?_, ?_,
    s1 rfl, s2, s3, s4⟩
  · rw [createWhiteSpace_eq, if_pos hfit]
  · simp [tokens, strsepLoop]
  · intro t ht
    exact strsepLoop_spaced _ _ hsp t ht

/-! ## Redirection in the child: lemmas and claim -/

theorem set_mid {α : Type} (pre : List α) (x y : α) (tl : List α) :
    (pre ++ x :: tl).set pre.length y = pre ++ y :: tl := by simp

/-- Whenever `execvp` fails, the child branch of `forkCall` does not end the
process: it returns (or its behaviour is not defined). -/
theorem forkCallChild_exec_fails (paths : List CStr) (cmdArr : Argv)
    (cmdArrSize pathIndex : Nat) :
    (forkCallChild (fun _ _ _ => false) paths cmdArr cmdArrSize pathIndex).2 =
        ChildEnd.returned ∨
      (forkCallChild (fun _ _ _ => false) paths cmdArr cmdArrSize pathIndex).2 =
        ChildEnd.fault := by
  unfold forkCallChild
  split
  · split_ifs
    · split
      · unfold childExec
        split <;> simp
      · simp
    · simp
    · unfold childExec
      split <;> simp
  · simp

/-- C16, at the line `.` with `paths = {"/bin"}`: `access("/bin/.", X_OK)`
succeeds, so `processCmd` forks; in the child `execvp(".", {".", NULL})` fails
and returns, and the child branch of `forkCall` ends with `return` into its
caller. -/
theorem forkCallChild_returns :
    runLine osDot shellInit ".".toList =
        Outcome.running
          { paths := ["/bin".toList], cwd := "/home".toList, forks := 1, children := 0,
            trace := [Action.spawn [some ".".toList, none] 1 0, Action.wait true] } ∧
      forkCallChild (fun _ _ _ => false) ["/bin".toList] [some ".".toList, none] 1 0 =
        ([ChildAction.putenv "PATH=/bin:/bin".toList,
            ChildAction.execvp ".".toList [".".toList]],
          ChildEnd.returned) := by
  decide

/-! ## `setPaths`: lemmas and claims -/

theorem setPathsEntry_eq (cwd e : CStr) :
    setPathsEntry cwd e =
      if cwd.length + e.length + 2 ≤ 1024 then some (cwd ++ ['/'] ++ e) else none := by
  unfold setPathsEntry getcwd strcat
  by_cases h : cwd.length + e.length + 2 ≤ 1024
  · rw [if_pos h, if_pos (by omega)]
    dsimp only
    rw [if_pos (by simp; omega)]
    dsimp only
    rw [if_pos (by simp; omega)]
  · rw [if_neg h]
    by_cases h1 : cwd.length + 1 ≤ 1024
    · rw [if_pos h1]
      dsimp only
      by_cases h2 : cwd.length + ['/'].length + 1 ≤ 1024
      · rw [if_pos h2]
        dsimp only
        rw [if_neg (by simp; omega)]
      · rw [if_neg h2]
    · rw [if_neg h1]

theorem setPathsLoop_stored (cwd : CStr) (args : List CStr) (pre tl : Argv) (acc : List CStr)
    (h : ∀ e ∈ args, e = "/bin".toList ∨ e = "/usr/bin".toList ∨ e.head? ≠ some '/')
    (hfit : ∀ e ∈ args, e ≠ "/bin".toList → e ≠ "/usr/bin".toList →
      cwd.length + e.length + 2 ≤ 1024) :
    setPathsLoop cwd (pre ++ (args.map some ++ tl)) args.length pre.length acc =
      some (acc ++ args.map (storedPath cwd)) := by
  induction args generalizing pre acc with
  | nil => simp [setPathsLoop]
  | cons e es ih =>
    have hes : ∀ x ∈ es, x = "/bin".toList ∨ x = "/usr/bin".toList ∨ x.head? ≠ some '/' :=
      fun x hx => h x (by simp [hx])
    have hfes : ∀ x ∈ es, x ≠ "/bin".toList → x ≠ "/usr/bin".toList →
        cwd.length + x.length + 2 ≤ 1024 :=
      fun x hx => hfit x (by simp [hx])
    have hstep : ∀ acc1, setPathsLoop cwd (pre ++ some e :: (es.map some ++ tl)) es.length
        (pre.length + 1) acc1 = some (acc1 ++ es.map (storedPath cwd)) := by
      intro acc1
      have := ih (pre ++ [some e]) acc1 hes hfes
      simpa using this
    simp only [List.length_cons, List.map_cons, List.cons_append, setPathsLoop, getElem?_mid]
    by_cases hd : e = "/bin".toList ∨ e = "/usr/bin".toList
    · have hnd : ¬ (e ≠ "/bin".toList ∧ e ≠ "/usr/bin".toList) := by
        rintro ⟨h1, h2⟩
        rcases hd with hd | hd
        · exact h1 hd
        · exact h2 hd
      rw [if_neg hnd, hstep]
      have hst : storedPath cwd e = e := by unfold storedPath; rw [if_pos hd]
      simp only [List.map_cons, hst, List.append_assoc, List.singleton_append]
    · have hnd : e ≠ "/bin".toList ∧ e ≠ "/usr/bin".toList :=
        ⟨fun e1 => hd (Or.inl e1), fun e2 => hd (Or.inr e2)⟩
      have hhead : e.head? ≠ some '/' := by
        rcases h e (by simp) with h1 | h1 | h1
        · exact absurd h1 hnd.1
        · exact absurd h1 hnd.2
        · exact h1
      rw [if_pos hnd, if_pos hhead, setPathsEntry_eq,
        if_pos (hfit e (by simp) hnd.1 hnd.2)]
      dsimp only
      rw [hstep]
      have hst : storedPath cwd e = cwd ++ ['/'] ++ e := by unfold storedPath; rw [if_neg hd]
      simp only [List.map_cons, hst, List.append_assoc, List.singleton_append]

theorem processCmd_path (os : OS) (s : Shell) (cmdArr : Argv) (cmdArrSize : Nat)
    (parallel : Bool) (pidIndex offset : Nat) (h0 : cmdArr[0]? = some (some "path".toList)) :
    processCmd os s cmdArr cmdArrSize parallel pidIndex offset =
      match setPaths s.cwd cmdArr cmdArrSize with
      | some paths1 => Outcome.running { s with paths := paths1 }
      | none => Outcome.fault := by
  unfold processCmd
  rw [h0]
  simp

/-- An argument of `path` that starts with `/` and is neither `/bin` nor `/usr/bin`
leaves `setPaths` without a defined result, wherever it stands among the
arguments: `strcat` is called on `paths[i-1]`, which was never assigned. -/
theorem setPathsLoop_slash (cwd : CStr) (cmdArr : Argv) (k i : Nat) (acc : List CStr)
    (j : Nat) (e : CStr) (h1 : i ≤ j) (h2 : j < i + k) (hj : cmdArr[j]? = some (some e))
    (hs : e.head? = some '/') (hd1 : e ≠ "/bin".toList) (hd2 : e ≠ "/usr/bin".toList) :
    setPathsLoop cwd cmdArr k i acc = none := by
  induction k generalizing i acc with
  | zero => omega
  | succ k ih =>
    unfold setPathsLoop
    by_cases hij : i = j
    · subst hij
      rw [hj]
      dsimp only
      rw [if_pos ⟨hd1, hd2⟩, if_neg (by rw [hs]; simp)]
    · have hlt : i + 1 ≤ j := by omega
      split
      · split_ifs
        · split
          · exact ih (i + 1) _ hlt (by omega)
          · rfl
        · rfl
        · exact ih (i + 1) _ hlt (by omega)
      · rfl

/-- An argument of `path` that does not start with `/` and does not fit the
1024 bytes of its entry together with the working directory, the `/` and the
NUL leaves `setPaths` without a defined result, wherever it stands among the
arguments. -/
theorem setPathsLoop_long (cwd : CStr) (cmdArr : Argv) (k i : Nat) (acc : List CStr)
    (j : Nat) (e : CStr) (h1 : i ≤ j) (h2 : j < i + k) (hj : cmdArr[j]? = some (some e))
    (hs : e.head? ≠ some '/') (hd1 : e ≠ "/bin".toList) (hd2 : e ≠ "/usr/bin".toList)
    (hl : 1024 < cwd.length + e.length + 2) :
    setPathsLoop cwd cmdArr k i acc = none := by
  induction k generalizing i acc with
  | zero => omega
  | succ k ih =>
    unfold setPathsLoop
    by_cases hij : i = j
    · subst hij
      rw [hj]
      dsimp only
      rw [if_pos ⟨hd1, hd2⟩, if_pos hs, setPathsEntry_eq, if_neg (by omega)]
    · have hlt : i + 1 ≤ j := by omega
      split
      · split_ifs
        · split
          · exact ih (i + 1) _ hlt (by omega)
          · rfl
        · rfl
        · exact ih (i + 1) _ hlt (by omega)
      · rfl

/-- C14: `setPaths` does not store `cwd + "/" + e` for every argument `e` that
does not start with `/`: the entry is built in a buffer of 1024 bytes, through
`getcwd` and two calls of `strcat` that check no length.  On `path` followed by
a word of 1100 letters `a` the second `strcat` stores past the buffer, in
every working directory, and so does every argument list with a non-default
entry `e` for which `strlen(cwd) + strlen(e) + 2 > 1024`: no list is defined
after the call.  For arguments that are each `/bin`, `/usr/bin` or a string not
starting with `/`, where every such string fits (`strlen(cwd) + strlen(e) + 2
≤ 1024`), `setPaths` returns the list with one entry per argument after the
command word, in order: a default as it is, another entry `e` as
`cwd + "/" + e` with the working directory of the call; the built-in `path`
makes it the new list, whatever the list was before. -/
theorem setPaths_stored :
    (∀ cwd : CStr, setPaths cwd
        [some "path".toList, some (List.replicate 1100 'a'), none] 2 = none) ∧
      (∀ (os : OS) (s : Shell) (parallel : Bool) (pidIndex offset : Nat),
        processCmd os s [some "path".toList, some (List.replicate 1100 'a'), none] 2
          parallel pidIndex offset = Outcome.fault) ∧
      (∀ (cwd : CStr) (x : Option CStr) (args : List CStr) (tl : Argv) (e : CStr),
        e ∈ args → e ≠ "/bin".toList → e ≠ "/usr/bin".toList → e.head? ≠ some '/' →
        1024 < cwd.length + e.length + 2 →
        setPaths cwd (x :: (args.map some ++ tl)) (args.length + 1) = none) ∧
      (∀ (os : OS) (s : Shell) (x : Option CStr) (args : List CStr) (tl : Argv)
          (parallel : Bool) (pidIndex offset : Nat),
        (∀ e ∈ args, e = "/bin".toList ∨ e = "/usr/bin".toList ∨ e.head? ≠ some '/') →
        (∀ e ∈ args, e ≠ "/bin".toList → e ≠ "/usr/bin".toList →
          s.cwd.length + e.length + 2 ≤ 1024) →
        setPaths s.cwd (x :: (args.map some ++ tl)) (args.length + 1) =
            some (args.map (storedPath s.cwd)) ∧
          processCmd os s (some "path".toList :: (args.map some ++ tl)) (args.length + 1)
              parallel pidIndex offset =
            Outcome.running { s with paths := args.map (storedPath s.cwd) }) ∧
      setPaths "/home".toList [some "path".toList, some "tools".toList, some "/bin".toList,
          none] 3 = some ["/home/tools".toList, "/bin".toList] := by
  have hlong : ∀ (cwd : CStr) (x : Option CStr) (args : List CStr) (tl : Argv) (e : CStr),
      e ∈ args → e ≠ "/bin".toList → e ≠ "/usr/bin".toList → e.head? ≠ some '/' →
      1024 < cwd.length + e.length + 2 →
      setPaths cwd (x :: (args.map some ++ tl)) (args.length + 1) = none := by
    intro cwd x args tl e he hd1 hd2 hs hl
    obtain ⟨n, hn⟩ := List.mem_iff_getElem?.mp he
    have hlt : n < args.length := by
      by_contra hge
      rw [List.getElem?_eq_none (by omega)] at hn
      cases hn
    unfold setPaths
    refine setPathsLoop_long cwd _ _ 1 [] (n + 1) e (by omega) (by omega) ?_ hs hd1 hd2 hl
    rw [List.getElem?_cons_succ, List.getElem?_append_left (by simpa using hlt),
      List.getElem?_map, hn]
    rfl
  have ha : ∀ cwd : CStr, setPaths cwd
      [some "path".toList, some (List.replicate 1100 'a'), none] 2 = none := by
    intro cwd
    have hne : ∀ t : CStr, t.length < 1100 → List.replicate 1100 'a' ≠ t := by
      intro t ht h
      have := congrArg List.length h
      rw [List.length_replicate] at this
      omega
    have := hlong cwd (some "path".toList) [List.replicate 1100 'a'] [none]
      (List.replicate 1100 'a') (List.mem_singleton.mpr rfl) (hne _ (by decide))
      (hne _ (by decide))
      (by rw [show (1100 : Nat) = 1099 + 1 from rfl, List.replicate_succ, List.head?_cons]
          decide)
      (by rw [List.length_replicate]; omega)
    exact this
  refine ⟨ha, ?_, hlong, ?_, by decide⟩
  · intro os s parallel pidIndex offset
    rw [processCmd_path os s _ _ parallel pidIndex offset (List.getElem?_cons_zero ..), ha]
  · intro os s x args tl parallel pidIndex offset h hfit
    have hset : ∀ y : Option CStr,
        setPaths s.cwd (y :: (args.map some ++ tl)) (args.length + 1) =
          some (args.map (storedPath s.cwd)) := by
      intro y
      unfold setPaths
      have := setPathsLoop_stored s.cwd args [y] tl [] h hfit
      simpa using this
    refine ⟨hset x, ?_⟩
    rw [processCmd_path os s _ _ parallel pidIndex offset (List.getElem?_cons_zero ..), hset]

/-- C15, at the line `path /tmp/tools`: the entry starts with `/` and is not a
default, so `setPaths` reaches `strcat(paths[0], "/tmp/tools")` with `paths[0]`
never assigned; no list is defined after the call, and nothing is stored
verbatim. -/
theorem setPaths_slash_entry :
    tokenize "path /tmp/tools".toList =
        some ([some "path".toList, some "/tmp/tools".toList, none], 2) ∧
      setPaths "/home".toList [some "path".toList, some "/tmp/tools".toList, none] 2 = none ∧
      processCmd osLs shellInit [some "path".toList, some "/tmp/tools".toList, none] 2 false 0
          0 = Outcome.fault ∧
      runLine osLs shellInit "path /tmp/tools".toList = Outcome.fault := by
  decide

theorem setPathsLoop_length (cwd : CStr) (cmdArr : Argv) (k i : Nat) (acc ps : List CStr)
    (h : setPathsLoop cwd cmdArr k i acc = some ps) : ps.length = acc.length + k := by
  induction k generalizing i acc with
  | zero =>
    simp only [setPathsLoop, Option.some.injEq] at h
    subst h; rfl
  | succ k ih =>
    unfold setPathsLoop at h
    split at h
    · split_ifs at h
      · split at h
        · have := ih _ _ h
          simp only [List.length_append, List.length_singleton] at this
          omega
        · cases h
      · have := ih _ _ h
        simp only [List.length_append, List.length_singleton] at this
        omega
    · cases h

theorem processCmd_paths (os : OS) (s s1 : Shell) (cmdArr : Argv) (n pid off : Nat)
    (par : Bool) (h : processCmd os s cmdArr n par pid off = Outcome.running s1) :
    s1.paths = s.paths ∨
      (cmdArr[0]? = some (some "path".toList) ∧ s1.paths.length = n - 1) := by
  unfold processCmd at h
  split at h
  · rename_i cmd h0
    split_ifs at h with e1 e2 e3 e4 e5 e6
    · cases h; left; rfl
    · unfold changeDir at h
      split at h
      · split at h <;> (cases h; left; rfl)
      · cases h
    · cases h; left; rfl
    · split at h
      · rename_i ps hps
        cases h
        right
        refine ⟨by rw [h0, e6], ?_⟩
        have := setPathsLoop_length _ _ _ _ _ _ hps
        simpa using this
      · cases h
    · split at h
      · split_ifs at h
        · cases h; left; rfl
        · cases h; left; rfl
        · unfold forkCall at h
          split_ifs at h
          · cases h; left; rfl
          · have h2 := Outcome.running.inj h
            subst h2
            left
            simp [wait]
          · have h2 := Outcome.running.inj h
            subst h2
            left; rfl
      · cases h
  · cases h

theorem dispatchAll_paths (os : OS) (cmds : List (Argv × Nat × Bool × Nat × Nat))
    (s0 s1 : Shell)
    (h0 : s0.paths ≠ [])
    (hc : ∀ c ∈ cmds, c.1[0]? = some (some "path".toList) → 2 ≤ c.2.1)
    (h : dispatchAll os s0 cmds = Outcome.running s1) : s1.paths ≠ [] := by
  induction cmds generalizing s0 with
  | nil =>
    simp only [dispatchAll, Outcome.running.injEq] at h
    subst h; exact h0
  | cons c cs ih =>
    unfold dispatchAll at h
    split at h
    · rename_i s2 hp
      apply ih s2 _ (fun d hd => hc d (by simp [hd])) h
      rcases processCmd_paths os s0 s2 _ _ _ _ _ hp with e | ⟨e1, e2⟩
      · rw [e]; exact h0
      · have := hc c (by simp) e1
        intro hnil
        rw [hnil] at e2
        simp at e2
        omega
    · rename_i o ho
      rw [h] at ho
      exact absurd rfl (ho s1)

/-! ## The search-path list: claim -/

/-- C17 fails as stated: from the initial shell the command `path` without an
argument leaves the list empty. -/
theorem paths_empty_after_path :
    runLine osLs shellInit "path".toList =
        Outcome.running
          { paths := [], cwd := "/home".toList, forks := 0, children := 0, trace := [] } ∧
      ¬ (∀ cmds s1, dispatchAll osLs shellInit cmds = Outcome.running s1 → s1.paths ≠ []) := by
  refine ⟨by decide, fun h => ?_⟩
  exact h [([some "path".toList, none], 1, false, 0, 0)]
    { paths := [], cwd := "/home".toList, forks := 0, children := 0, trace := [] }
    (by decide) rfl

/-- C17, amended: the initial `setPaths` of `controller` makes the list the single
entry `/bin`; from a shell whose list is not empty, every state reached by
dispatching a sequence of commands through `processCmd` in which each `path`
command has at least one argument has a non-empty list; and `path` without
an argument makes the list empty. -/
theorem paths_nonempty (os : OS) :
    (∀ cwd : CStr, setPaths cwd [some [], some "/bin".toList] 2 = some ["/bin".toList]) ∧
      (∀ (s0 s1 : Shell) (cmds : List (Argv × Nat × Bool × Nat × Nat)), s0.paths ≠ [] →
        (∀ c ∈ cmds, c.1[0]? = some (some "path".toList) → 2 ≤ c.2.1) →
        dispatchAll os s0 cmds = Outcome.running s1 → s1.paths ≠ []) ∧
      (∀ (s : Shell) (cmdArr : Argv) (parallel : Bool) (pidIndex offset : Nat),
        cmdArr[0]? = some (some "path".toList) →
        processCmd os s cmdArr 1 parallel pidIndex offset =
          Outcome.running { s with paths := [] }) := by
  refine ⟨fun cwd => ?_, fun s0 s1 cmds h0 hc h => dispatchAll_paths os cmds s0 s1 h0 hc h, ?_⟩
  · have := setPathsLoop_stored cwd ["/bin".toList] [some []] [] [] (by decide)
      (by
        intro e he h1
        rw [List.mem_singleton] at he
        exact absurd he h1)
    simpa [setPaths, storedPath] using this
  · intro s cmdArr parallel pidIndex offset h0
    rw [processCmd_path os s cmdArr 1 parallel pidIndex offset h0]
    rfl

theorem paths_nonempty_witness :
    shellInit.paths ≠ [] ∧
      (∀ c ∈ [(([some "path".toList, some "tools".toList, none], 2, false, 0, 0) :
            Argv × Nat × Bool × Nat × Nat), ([some "ls".toList, none], 1, false, 0, 0)],
          c.1[0]? = some (some "path".toList) → 2 ≤ c.2.1) ∧
      dispatchAll osLs shellInit
          [([some "path".toList, some "tools".toList, none], 2, false, 0, 0),
            ([some "ls".toList, none], 1, false, 0, 0)] =
        Outcome.running
          { paths := ["/home/tools".toList], cwd := "/home".toList, forks := 0, children := 0,
            trace := [Action.writeErr] } ∧
      ["/home/tools".toList] ≠ ([] : List CStr) :=
  ⟨by decide, by decide, by decide,
    (paths_nonempty osLs).2.1 shellInit
      { paths := ["/home/tools".toList], cwd := "/home".toList, forks := 0, children := 0,
        trace := [Action.writeErr] }
      [([some "path".toList, some "tools".toList, none], 2, false, 0, 0),
        ([some "ls".toList, none], 1, false, 0, 0)]
      (by decide) (by decide) (by decide)⟩

/-! ## Indices into `pids`: claim -/

/-- C18, at the line `ls & ls` (with `/bin/ls` executable and `fork` succeeding):
`pids` is allocated with `numPar = 2` entries, and `executeParallel` passes
`pidIndex = 2` for the second group, which `forkCall` uses for the store
`pids[2] = rc`. -/
theorem executeParallel_pidIndex :
    tokenize "ls & ls".toList =
        some ([some "ls".toList, some ['&'], some "ls".toList, none], 3) ∧
      processParallel [some "ls".toList, some ['&'], some "ls".toList, none] 3 2 =
        some ([0, 1, 2, 1], [some "ls".toList, none, some "ls".toList, none]) ∧
      processCmd osLs (shellInit.log [Action.allocPids 2])
          [some "ls".toList, none] 1 true 2 2 =
        Outcome.running
          { paths := ["/bin".toList], cwd := "/home".toList, forks := 1, children := 1,
            trace := [Action.allocPids 2, Action.spawn [some "ls".toList, none] 1 0,
              Action.storePid 2] } ∧
      runLine osLs shellInit "ls & ls".toList =
        Outcome.running
          { paths := ["/bin".toList], cwd := "/home".toList, forks := 2, children := 0,
            trace := [Action.allocPids 2,
              Action.spawn [some "ls".toList, none, some "ls".toList, none] 1 0,
              Action.storePid 0,
              Action.spawn [some "ls".toList, none] 1 0,
              Action.storePid 2,
              Action.wait true, Action.wait true, Action.freePids] } := by
  decide

/-! ## Content of the tokens: lemmas and claim -/

theorem filter_createWhiteSpace (line : CStr) :
    (createWhiteSpaceChars line).filter (fun c => !isspace c) =
      line.filter (fun c => !isspace c) := by
  induction line with
  | nil => rfl
  | cons c cs ih =>
    unfold createWhiteSpaceChars
    split_ifs with hc
    · have hsp : isspace ' ' = true := rfl
      simp only [List.filter_cons, hsp, Bool.not_true, Bool.false_eq_true, if_false, ih]
    · simp only [List.filter_cons, ih]

theorem filter_removeWhiteSpaceLoop (cs : CStr) (p sn : Bool) :
    (removeWhiteSpaceLoop cs p sn []).filter (fun c => !isspace c) =
      cs.filter (fun c => !isspace c) := by
  have hsp : isspace ' ' = true := rfl
  induction cs generalizing p sn with
  | nil => rfl
  | cons c cs ih =>
    unfold removeWhiteSpaceLoop
    split_ifs with h1 h2
    · rw [removeWhiteSpaceLoop_acc]
      simp only [List.nil_append, List.cons_append, List.filter_cons, ih]
    · have hc : isspace c = true := by simpa using h1
      rw [removeWhiteSpaceLoop_acc]
      simp only [List.nil_append, List.cons_append, List.filter_cons, ih, hsp, hc,
        Bool.not_true, Bool.false_eq_true, if_false]
    · have hc : isspace c = true := by simpa using h1
      simp only [List.filter_cons, ih, hc, Bool.not_true, Bool.false_eq_true, if_false]

theorem filter_trimLast (o : CStr) :
    (trimLast o).filter (fun c => !isspace c) = o.filter (fun c => !isspace c) := by
  unfold trimLast
  split
  · rename_i c hc
    split_ifs with hsp
    · have hl := List.dropLast_append_getLast? c hc
      conv_rhs => rw [← hl]
      simp [List.filter_append, hsp]
    · rfl
  · rfl

theorem spaces_removeWhiteSpaceLoop (cs : CStr) (p sn : Bool) :
    ∀ c ∈ removeWhiteSpaceLoop cs p sn [], isspace c = true → c = ' ' := by
  induction cs generalizing p sn with
  | nil => simp [removeWhiteSpaceLoop]
  | cons d ds ih =>
    unfold removeWhiteSpaceLoop
    split_ifs with h1 h2
    · rw [removeWhiteSpaceLoop_acc]
      intro c hc hsp
      simp only [List.nil_append, List.cons_append, List.mem_cons] at hc
      rcases hc with rfl | hc
      · rw [h1] at hsp; cases hsp
      · exact ih _ _ c hc hsp
    · rw [removeWhiteSpaceLoop_acc]
      intro c hc hsp
      simp only [List.nil_append, List.cons_append, List.mem_cons] at hc
      rcases hc with rfl | hc
      · rfl
      · exact ih _ _ c hc hsp
    · exact ih _ _

theorem mem_trimLast (o : CStr) (c : Char) (h : c ∈ trimLast o) : c ∈ o := by
  unfold trimLast at h
  split at h
  · split_ifs at h
    · exact List.mem_of_mem_dropLast h
    · exact h
  · exact h

theorem filter_space_eq (r : CStr) (h : ∀ c ∈ r, isspace c = true → c = ' ') :
    r.filter (fun c => decide (c ≠ ' ')) = r.filter (fun c => !isspace c) := by
  apply List.filter_congr
  intro c hc
  by_cases hsp : isspace c = true
  · have := h c hc hsp
    subst this
    rfl
  · have hf : isspace c = false := by simpa using hsp
    have hne := isspace_space_ne c hf
    simp [hf, hne]

theorem filter_strsep (s : CStr) :
    s.filter (fun c => decide (c ≠ ' ')) =
      (strsep s).1 ++
        (match (strsep s).2 with
          | some r => r.filter (fun c => decide (c ≠ ' '))
          | none => []) := by
  induction s with
  | nil => rfl
  | cons c cs ih =>
    unfold strsep
    split_ifs with hc
    · subst hc
      simp
    · simp only [List.filter_cons, hc, ne_eq, not_false_eq_true, decide_True, if_true,
        List.cons_append]
      rw [ih]

theorem flatten_strsepLoop (fuel : Nat) (s : CStr) (hf : s.length < fuel) :
    (strsepLoop fuel (some s)).flatten = s.filter (fun c => decide (c ≠ ' ')) := by
  induction fuel generalizing s with
  | zero => omega
  | succ n ih =>
    simp only [strsepLoop, List.flatten_cons]
    rw [filter_strsep s]
    cases hr : (strsep s).2 with
    | none =>
      have : strsepLoop n none = [] := by cases n <;> rfl
      rw [this]; rfl
    | some r =>
      have hlen := strsep_length s r hr
      rw [ih r (by omega)]

/-- The concatenation of the tokens of a line is the line without its
white-space characters. -/
theorem flatten_tokens (line : CStr) :
    (tokens line).flatten = line.filter (fun c => !isspace c) := by
  unfold tokens
  rw [flatten_strsepLoop _ _ (by omega)]
  have hsp : ∀ c ∈ removeWhiteSpace (createWhiteSpaceChars line), isspace c = true → c = ' ' := by
    intro c hc
    rw [removeWhiteSpace_eq] at hc
    exact spaces_removeWhiteSpaceLoop _ _ _ c (mem_trimLast _ c hc)
  rw [filter_space_eq _ hsp, removeWhiteSpace_eq, filter_trimLast,
    filter_removeWhiteSpaceLoop, filter_createWhiteSpace]

/-- C21: tokenization does not keep the content of every input line: on the
line of twenty `>` the loop of `createWhiteSpace` stores 60 characters into
the 40 bytes it allocated, and no token sequence is defined; this is so for
every line with ten or more `>` and `&`.  For every line with at most nine
the property holds: the tokens stored in `cmdArr`, concatenated in order, are
the line with its white-space characters removed, so tokenization drops
nothing but white space and no space written around `>` or `&` is part of a
token.  On `ls  -la>out.txt` the concatenation is `ls-la>out.txt`. -/
theorem tokenize_content :
    tokenize ">>>>>>>>>>>>>>>>>>>>".toList = none ∧
      (∀ line : CStr, 10 ≤ line.count '>' + line.count '&' → tokenize line = none) ∧
      (∀ line : CStr, line.count '>' + line.count '&' ≤ 9 →
        ∃ toks : List CStr,
          tokenize line = some (toks.map some ++ [none], toks.length) ∧
          toks.flatten = line.filter (fun c => !isspace c)) ∧
      tokenize "ls  -la>out.txt".toList =
        some (["ls".toList, "-la".toList, ">".toList, "out.txt".toList].map some ++ [none],
          4) ∧
      ["ls".toList, "-la".toList, ">".toList, "out.txt".toList].flatten =
        "ls-la>out.txt".toList := by
  refine ⟨by rw [tokenize_eq, if_neg (by decide)], ?_, ?_, by decide, by decide⟩
  · intro line h
    rw [tokenize_eq, if_neg (by omega)]
  · intro line h
    exact ⟨tokens line, tokenize_fits line h, flatten_tokens line⟩

end Lsh
